import Mathlib

/-!
# Concurrent hash server: a shallow embedding of `server.c` and `client_server.h`

The C program keeps one global chained hash table (`my_hash_table`) and serves
`CMD_STOR` / `CMD_RETR` requests through `handle_cmd`, which starts a worker
thread (`wcb` or `rcb`) and joins it at once.  The embedding below is the
sequential semantics of that code:

* `unsigned int` values are natural numbers.  The only arithmetic in the modelled
  code is xor, right shift and remainder, none of which can leave the 32-bit range
  on 32-bit inputs (`hashval_lt_two_pow_32`).
* A collision list (`htcl *` chain) is a `List htcl`; the first element is the head
  node that `create_hash_table` allocates for every bucket.  A `NULL` chain is `[]`.
* The bucket array is a function from the index to the chain; indices from
  `HASH_TABLE_SIZE` on hold no chain.
* Functions that write to the table return the new table next to their result.
* `malloc` and the `pthread_rwlock_*` calls are taken on their success path (the C code
  exits the process otherwise); `main` exits when `create_hash_table` returns `NULL`,
  so the table pointer handed to `lookup` is never `NULL`.
* Dereferencing `NULL` (in `add_entry_to_bucket`, for a chain without head node) is `none`.
* For the lock discipline the handlers are given a second time as the sequence of their
  calls on `rw_lock` and of their accesses to table storage, in the order of the C
  statements (`rcb_events`, `wcb_events`).
-/

namespace HashServer

/-! ## Constants (`server.c`, `client_server.h`) -/

/-- The macro `HASH_TABLE_SIZE`. -/
def HASH_TABLE_SIZE : Nat := 10009

/-- The macro `INVALID_BUCKET_INDEX`. -/
def INVALID_BUCKET_INDEX : Nat := 0xFFFFFFFF

/-- The macro `CMD_STOR` (0) as a `bool`. -/
def CMD_STOR : Bool := false

/-- The macro `CMD_RETR` (1) as a `bool`. -/
def CMD_RETR : Bool := true

/-- The macro `CMD_SUCCESS` (1) as a `bool`. -/
def CMD_SUCCESS : Bool := true

/-- The macro `CMD_NOSUCCESS` (0) as a `bool`. -/
def CMD_NOSUCCESS : Bool := false

/-- The global `int hash_table_size = HASH_TABLE_SIZE;` (never assigned again). -/
def hash_table_size : Nat := HASH_TABLE_SIZE

/-! ## Data model -/

/-- A node of a collision list, `struct list_t` without its `next` pointer
(the successor is the rest of the list). -/
structure htcl where
  key : Nat
  value : Nat
  bucket_idx : Nat
deriving DecidableEq

/-- The table `hash_table_t`: `hash_bucket[idx]` is the chain that starts at the
head node of bucket `idx`. -/
structure hash_table_t where
  hash_bucket : Nat → List htcl

/-- The struct `thread_data` that travels between `handle_cmd` and the worker;
the table and lock pointers are the explicit table argument of the workers. -/
structure thread_data where
  key : Nat
  value : Nat
  status : Bool
  bucket_idx : Nat
deriving DecidableEq

/-! ## Table construction and hashing -/

/-- The function `create_hash_table`: every bucket gets a freshly allocated head node with
`next = NULL`, `value = 0`, `bucket_idx = 0`.  The `key` field of the head node is
not assigned by the C code; `uninit idx` is the content that the allocated memory
happens to have there (an arbitrary 32-bit value). -/
def create_hash_table (uninit : Nat → Nat) : hash_table_t :=
  { hash_bucket := fun idx =>
      if idx < HASH_TABLE_SIZE then
        [{ key := uninit idx % 4294967296, value := 0, bucket_idx := 0 }]
      else [] }

/-- The function `hash`: the table argument is not used. -/
def hash (_hashtable : hash_table_t) (key : Nat) : Nat :=
  let hashval := 0xDEADBEEF
  let hashval := hashval ^^^ (key ^^^ (key >>> 8) ^^^ (key >>> 16) ^^^ (key >>> 24))
  let hashval := hashval ^^^ (hashval ^^^ (hashval >>> 8) ^^^ (hashval >>> 16) ^^^ (hashval >>> 24))
  hashval % hash_table_size

/-! ## Lookup and insertion -/

/-- The match condition of the `if` in the loop of `lookup`. -/
def lookup_match (ignore_value : Bool) (key value : Nat) (node : htcl) : Bool :=
  (ignore_value && key == node.key) ||
  (!ignore_value && key == node.key && value == node.value)

/-- The `for` loop of `lookup` over one chain.  The first node that satisfies the match
condition gets `bucket_idx = hashval` written and is returned; the result is the chain
after that write together with the returned node (`none` for `NULL`). -/
def lookup_loop (ignore_value : Bool) (key value hashval : Nat) :
    List htcl → List htcl × Option htcl
  | [] => ([], none)
  | node :: next =>
    if lookup_match ignore_value key value node then
      ({ node with bucket_idx := hashval } :: next, some { node with bucket_idx := hashval })
    else
      let r := lookup_loop ignore_value key value hashval next
      (node :: r.1, r.2)

/-- The function `lookup`: walks the chain of bucket `hash(key)` from its head node. -/
def lookup (hashtable : hash_table_t) (ignore_value : Bool) (key value : Nat) :
    hash_table_t × Option htcl :=
  let hashval := hash hashtable key
  let r := lookup_loop ignore_value key value hashval (hashtable.hash_bucket hashval)
  ({ hash_bucket := fun idx => if idx = hashval then r.1 else hashtable.hash_bucket idx }, r.2)

/-- The function `add_entry_to_bucket`: builds the node, records the bucket index in `tdata`,
walks to the last node of the chain and links the new node behind it.  With a `NULL`
chain the final `iterator->next = node` dereferences `NULL`. -/
def add_entry_to_bucket (hash_table : hash_table_t) (tdata : thread_data) :
    Option (hash_table_t × thread_data) :=
  let hashval := hash hash_table tdata.key
  let node : htcl := { key := tdata.key, value := tdata.value, bucket_idx := hashval }
  let tdata := { tdata with bucket_idx := hashval }
  match hash_table.hash_bucket hashval with
  | [] => none
  | head :: rest =>
    some ({ hash_bucket := fun idx =>
              if idx = hashval then (head :: rest) ++ [node] else hash_table.hash_bucket idx },
          tdata)

/-! ## Worker callbacks and command entry point -/

/-- The reader callback `rcb`: key-only lookup (`ignore_value = true`). -/
def rcb (my_hash_table : hash_table_t) (tdata : thread_data) : hash_table_t × thread_data :=
  let r := lookup my_hash_table true tdata.key tdata.value
  match r.2 with
  | some lookedupnode =>
    (r.1, { tdata with status := CMD_SUCCESS, bucket_idx := lookedupnode.bucket_idx })
  | none =>
    (r.1, { tdata with status := CMD_NOSUCCESS, bucket_idx := INVALID_BUCKET_INDEX })

/-- The writer callback `wcb`: lookup on key and value (`ignore_value = false`), then
insertion when the lookup returned `NULL`. -/
def wcb (my_hash_table : hash_table_t) (tdata : thread_data) :
    Option (hash_table_t × thread_data) :=
  let r := lookup my_hash_table false tdata.key tdata.value
  let tdata := { tdata with status := CMD_SUCCESS }
  match r.2 with
  | none => add_entry_to_bucket r.1 tdata
  | some lookedupnode => some (r.1, { tdata with bucket_idx := lookedupnode.bucket_idx })

/-- The function `handle_cmd`: fills a `thread_data`, runs the worker for the command to
completion (`pthread_create` followed at once by `pthread_join`) and returns
`tdata.status`.  The result here is the table after the call and the final `tdata`, whose
`status` is the C return value and whose `key`, `value`, `bucket_idx` are what the
"Result" line prints.  `*value` is only read. -/
def handle_cmd (my_hash_table : hash_table_t) (cmd : Bool) (key value : Nat) :
    Option (hash_table_t × thread_data) :=
  let tdata : thread_data :=
    { key := key, value := value, status := CMD_NOSUCCESS, bucket_idx := INVALID_BUCKET_INDEX }
  if CMD_STOR == cmd then wcb my_hash_table tdata
  else if CMD_RETR == cmd then some (rcb my_hash_table tdata)
  else some (my_hash_table, tdata)

/-- A client request: the command bit, the key and the value field. -/
structure request where
  cmd : Bool
  key : Nat
  value : Nat
deriving DecidableEq

/-- The server serving a sequence of requests one after the other, each through
`handle_cmd`; the result is the table after the last one. -/
def serve : hash_table_t → List request → Option hash_table_t
  | t, [] => some t
  | t, rq :: rqs =>
    match handle_cmd t rq.cmd rq.key rq.value with
    | none => none
    | some r => serve r.1 rqs

/-- Table states the server can be in: the table built by `create_hash_table` (with any
content of the unassigned head keys) and every table that `handle_cmd` produces from a
reachable one. -/
inductive Reachable : hash_table_t → Prop
  | init (uninit : Nat → Nat) : Reachable (create_hash_table uninit)
  | step {t t' : hash_table_t} {r : thread_data} (cmd : Bool) (key value : Nat) :
      Reachable t → handle_cmd t cmd key value = some (t', r) → Reachable t'

/-! ## Message encoding (`client_server.h`)

The two functions of the header call `snprintf` and `strtol`.  These belong to the C
library, not to the repository; they are given here with their ISO C meaning for the
conversions and the base that the header uses.  A message buffer is the list of the
characters before the terminating NUL; the buffer is cleared (`CLEAR_SOCKET_BUFFER`)
before it is filled, so a read behind the text yields NUL. -/

/-- The macro `MESSAGE_BUFFER_SIZE`. -/
def MESSAGE_BUFFER_SIZE : Nat := 64

/-- The macro `KEY_SIZE_IN_MSG`. -/
def KEY_SIZE_IN_MSG : Nat := 4

/-- The macro `VAL_SIZE_IN_MSG`. -/
def VAL_SIZE_IN_MSG : Nat := 8

/-- The macro `KEY_OFFSET_IN_MSG`. -/
def KEY_OFFSET_IN_MSG : Nat := 4

/-- The macro `VAL_OFFSET_IN_MSG`. -/
def VAL_OFFSET_IN_MSG : Nat := 8

/-- The largest `long` of the C implementation, for the LP64 data model (64-bit `long`)
of the POSIX systems the program is written for. -/
def LONG_MAX : Int := 9223372036854775807

/-- The smallest `long` of the C implementation (LP64). -/
def LONG_MIN : Int := -9223372036854775808

/-- The struct `buffer_data`.  The fields `command` and `status` are the two names of one
`bool` in an anonymous union; `key` is an `unsigned short`, `value` an `unsigned int`. -/
structure buffer_data where
  seq_num : Nat
  command : Bool
  key : Nat
  value : Nat
deriving DecidableEq

/-- The last `width` hexadecimal digits of `n`, most significant first, with the letters
`abcdef`. -/
def hex_low : Nat → Nat → List Char
  | 0, _ => []
  | width + 1, n => hex_low width (n / 16) ++ [Nat.digitChar (n % 16)]

/-- The `printf` conversion `%0<width>x`: `n` in hexadecimal with the letters `abcdef`,
padded with zeros on the left to at least `width` digits. -/
def fmt_0x (width n : Nat) : List Char :=
  (if n / 16 ^ width = 0 then [] else Nat.toDigits 16 (n / 16 ^ width)) ++ hex_low width n

/-- The `printf` conversion `%d` applied to a `bool` argument (promoted to the `int` 0 or 1). -/
def fmt_d_bool (b : Bool) : List Char := Nat.toDigits 10 b.toNat

/-- The call `snprintf(buffer, size, "%d000%04x%08x", command, key, value)`: at most
`size - 1` characters of the formatted text are stored. -/
def snprintf_msg (size : Nat) (command : Bool) (key value : Nat) : List Char :=
  (fmt_d_bool command ++ ['0', '0', '0'] ++ fmt_0x 4 key ++ fmt_0x 8 value).take (size - 1)

/-- The C library predicate `isspace` in the "C" locale. -/
def isspace (c : Char) : Bool :=
  c == ' ' || c == '\t' || c == '\n' || c == '\x0b' || c == '\x0c' || c == '\r'

/-- The value of a character as a digit in base 16, if it is one. -/
def hex_digit_val (c : Char) : Option Nat :=
  if '0'.toNat ≤ c.toNat ∧ c.toNat ≤ '9'.toNat then some (c.toNat - '0'.toNat)
  else if 'a'.toNat ≤ c.toNat ∧ c.toNat ≤ 'f'.toNat then some (c.toNat - 'a'.toNat + 10)
  else if 'A'.toNat ≤ c.toNat ∧ c.toNat ≤ 'F'.toNat then some (c.toNat - 'A'.toNat + 10)
  else none

/-- The digit loop of `strtol` in base 16: digits are accumulated up to the first
character that is not a hexadecimal digit (the terminating NUL at the latest). -/
def strtol_digits (acc : Nat) : List Char → Nat
  | [] => acc
  | c :: cs =>
    match hex_digit_val c with
    | some d => strtol_digits (acc * 16 + d) cs
    | none => acc

/-- The call `strtol(s, NULL, 16)`: leading white space is skipped, one sign is accepted,
then an optional `0x` or `0X` in front of a hexadecimal digit, then the digits; a value
outside the range of `long` gives `LONG_MAX` or `LONG_MIN`. -/
def strtol16 (s : List Char) : Int :=
  let s := s.dropWhile isspace
  let neg := s.head? == some '-'
  let s := if s.head? == some '-' || s.head? == some '+' then s.tail else s
  let s :=
    if s.head? == some '0' && (s.tail.head? == some 'x' || s.tail.head? == some 'X') &&
        ((s.tail.tail.head?).bind hex_digit_val).isSome then s.tail.tail
    else s
  let n : Int := strtol_digits 0 s
  if neg then (if -n < LONG_MIN then LONG_MIN else -n)
  else (if LONG_MAX < n then LONG_MAX else n)

/-- The cast `(unsigned int)` of a `long`. -/
def to_unsigned_int (x : Int) : Nat := (x % 4294967296).toNat

/-- The function `encode_key_value_to_message_buffer`: the text written to the buffer. -/
def encode_key_value_to_message_buffer (bdata : buffer_data) : List Char :=
  snprintf_msg MESSAGE_BUFFER_SIZE bdata.command bdata.key bdata.value

/-- The function `decode_key_value_from_message_buffer`: copies the key and the value
characters into NUL-terminated strings, converts them with `strtol` and stores flag, key
(narrowed to `unsigned short`) and value in `bdata`. -/
def decode_key_value_from_message_buffer (buffer : List Char) (bdata : buffer_data) :
    buffer_data :=
  let server_key : List Char :=
    (List.range KEY_SIZE_IN_MSG).map fun i => buffer.getD (i + KEY_OFFSET_IN_MSG) '\x00'
  let server_val : List Char :=
    (List.range VAL_SIZE_IN_MSG).map fun i => buffer.getD (i + VAL_OFFSET_IN_MSG) '\x00'
  { bdata with
    command := if buffer.getD 0 '\x00' == '1' then true else false
    key := to_unsigned_int (strtol16 server_key) % 65536
    value := to_unsigned_int (strtol16 server_val) }

/-! ## Response construction and the server loop (`server.c`) -/

/-- The function `construct_response`: when the status bit of `bdata` is 0 the value field
is overwritten with `0xdeadbeef`, then `bdata` is encoded.  The result is the text written
to the buffer and `bdata` after the call. -/
def construct_response (bdata : buffer_data) : List Char × buffer_data :=
  let bdata := if !bdata.command then { bdata with value := 0xdeadbeef } else bdata
  (encode_key_value_to_message_buffer bdata, bdata)

/-- One pass through the `while (1)` loop of `poll_server_side_socket_to_process_command`,
for the text `request_text` that `read` has put into the cleared buffer: the request is
decoded into `bdata`, `handle_cmd` is called with `bdata.command`, `bdata.key` and the
address of `bdata.value`, its return value is stored in `bdata.status` (the same `bool` as
`bdata.command`), and `construct_response` builds the text that is written to the socket.
`handle_cmd` has no assignment through its `value` pointer, so `bdata.value` is after the
call what it was before.  The result is the table after the pass, the response text and
`bdata` at the end of the pass. -/
def poll_server_side_socket_to_process_command (my_hash_table : hash_table_t) (seq_num : Nat)
    (bdata : buffer_data) (request_text : List Char) :
    Option (hash_table_t × List Char × buffer_data) :=
  let bdata := { bdata with seq_num := seq_num }
  let bdata := decode_key_value_from_message_buffer request_text bdata
  match handle_cmd my_hash_table bdata.command bdata.key bdata.value with
  | none => none
  | some r =>
    let status := r.2.status
    let bdata := { bdata with command := status }
    let response := construct_response bdata
    some (r.1, response.1, response.2)

/-! ## Lock and table accesses of a handler, in program order

The worker callbacks are given a second time, now producing the sequence of the calls on
`rw_lock` and of the accesses to table storage that the C statements perform, in the
order of the statements. -/

/-- A table-free name for the bucket of a key, used to normalise `hash t key`. -/
def bucket_of (key : Nat) : Nat := hash { hash_bucket := fun _ => [] } key

/-- The key and value of a node. -/
def kv (n : htcl) : Nat × Nat := (n.key, n.value)

/-- Relation between a node before and after a `lookup`: key and value are the same and
the `bucket_idx` field is either the same or has been set to `hashval`. -/
def stamped (hashval : Nat) (n n' : htcl) : Prop :=
  n'.key = n.key ∧ n'.value = n.value ∧ (n'.bucket_idx = n.bucket_idx ∨ n'.bucket_idx = hashval)

/-- The invariant of reachable tables: every bucket of the array has its head node, every
node behind a head node lies in the bucket of its key and carries that index, and no two
nodes behind the same head node agree in both key and value. -/
def TableInv (t : hash_table_t) : Prop :=
  (∀ idx, idx < HASH_TABLE_SIZE → t.hash_bucket idx ≠ []) ∧
  (∀ idx, ∀ n ∈ (t.hash_bucket idx).tail, bucket_of n.key = idx ∧ n.bucket_idx = idx) ∧
  (∀ idx, ((t.hash_bucket idx).tail.map kv).Nodup)

/-- The table of a server that started on zero-filled memory and has served `rqs`. -/
def table_after (rqs : List request) : hash_table_t :=
  match serve (create_hash_table fun _ => 0) rqs with
  | some t => t
  | none => create_hash_table fun _ => 0

/-! ## Basic facts about `hash` -/

@[simp] theorem hash_eq_bucket_of (t : hash_table_t) (key : Nat) : hash t key = bucket_of key := rfl

theorem bucket_of_lt (key : Nat) : bucket_of key < HASH_TABLE_SIZE := by
  unfold bucket_of hash
  exact Nat.mod_lt _ (by decide)

/-- On a 32-bit key both mixing steps of `hash` stay below `2^32`: the C computation on
`unsigned int` never wraps, so the natural-number arithmetic of `hash` is the C one. -/
theorem hashval_lt_two_pow_32 (key : Nat) (hk : key < 2 ^ 32) :
    0xDEADBEEF ^^^ (key ^^^ (key >>> 8) ^^^ (key >>> 16) ^^^ (key >>> 24)) < 2 ^ 32 ∧
    (0xDEADBEEF ^^^ (key ^^^ (key >>> 8) ^^^ (key >>> 16) ^^^ (key >>> 24))) ^^^
      ((0xDEADBEEF ^^^ (key ^^^ (key >>> 8) ^^^ (key >>> 16) ^^^ (key >>> 24))) ^^^
       ((0xDEADBEEF ^^^ (key ^^^ (key >>> 8) ^^^ (key >>> 16) ^^^ (key >>> 24))) >>> 8) ^^^
       ((0xDEADBEEF ^^^ (key ^^^ (key >>> 8) ^^^ (key >>> 16) ^^^ (key >>> 24))) >>> 16) ^^^
       ((0xDEADBEEF ^^^ (key ^^^ (key >>> 8) ^^^ (key >>> 16) ^^^ (key >>> 24))) >>> 24))
      < 2 ^ 32 := by
  have sh : ∀ (x n : Nat), x < 2 ^ 32 → x >>> n < 2 ^ 32 := fun x n hx =>
    lt_of_le_of_lt (by rw [Nat.shiftRight_eq_div_pow]; exact Nat.div_le_self _ _) hx
  have h1 : 0xDEADBEEF ^^^ (key ^^^ (key >>> 8) ^^^ (key >>> 16) ^^^ (key >>> 24)) < 2 ^ 32 :=
    Nat.xor_lt_two_pow (by decide)
      (Nat.xor_lt_two_pow (Nat.xor_lt_two_pow (Nat.xor_lt_two_pow hk (sh _ _ hk)) (sh _ _ hk))
        (sh _ _ hk))
  exact ⟨h1, Nat.xor_lt_two_pow h1
    (Nat.xor_lt_two_pow (Nat.xor_lt_two_pow (Nat.xor_lt_two_pow h1 (sh _ _ h1)) (sh _ _ h1))
      (sh _ _ h1))⟩

/-! ## The loop of `lookup` -/

theorem lookup_loop_snd (ig : Bool) (k v h : Nat) (l : List htcl) :
    (lookup_loop ig k v h l).2 =
      (l.find? (lookup_match ig k v)).map (fun n => { n with bucket_idx := h }) := by
  induction l with
  | nil => rfl
  | cons n l ih =>
    by_cases hm : lookup_match ig k v n = true
    · simp [lookup_loop, hm]
    · simp [lookup_loop, hm, ih]

theorem lookup_loop_stamped (ig : Bool) (k v h : Nat) (l : List htcl) :
    List.Forall₂ (stamped h) l (lookup_loop ig k v h l).1 := by
  induction l with
  | nil => exact List.Forall₂.nil
  | cons n l ih =>
    by_cases hm : lookup_match ig k v n = true
    · simp only [lookup_loop, hm, if_true]
      exact List.Forall₂.cons ⟨rfl, rfl, Or.inr rfl⟩
        (List.forall₂_same.mpr fun x _ => ⟨rfl, rfl, Or.inl rfl⟩)
    · simp only [lookup_loop, hm]
      exact List.Forall₂.cons ⟨rfl, rfl, Or.inl rfl⟩ ih

theorem lookup_loop_fst_of_none (ig : Bool) (k v h : Nat) (l : List htcl)
    (hn : (lookup_loop ig k v h l).2 = none) : (lookup_loop ig k v h l).1 = l := by
  induction l with
  | nil => rfl
  | cons n l ih =>
    by_cases hm : lookup_match ig k v n = true
    · simp [lookup_loop, hm] at hn
    · simp only [lookup_loop, hm] at hn ⊢
      simp [ih hn]

theorem lookup_loop_fst_of_idx (ig : Bool) (k v h : Nat) (l : List htcl)
    (hidx : ∀ n ∈ l, lookup_match ig k v n = true → n.bucket_idx = h) :
    (lookup_loop ig k v h l).1 = l := by
  induction l with
  | nil => rfl
  | cons n l ih =>
    by_cases hm : lookup_match ig k v n = true
    · have := hidx n (List.mem_cons_self _ _) hm
      simp only [lookup_loop, hm, if_true]
      cases n
      simp_all
    · simp only [lookup_loop, hm]
      simp [ih fun x hx => hidx x (List.mem_cons_of_mem _ hx)]

theorem lookup_loop_none_iff (ig : Bool) (k v h : Nat) (l : List htcl) :
    (lookup_loop ig k v h l).2 = none ↔ ∀ n ∈ l, lookup_match ig k v n = false := by
  rw [lookup_loop_snd]
  simp [List.find?_eq_none]

theorem lookup_loop_some_idx (ig : Bool) (k v h : Nat) (l : List htcl) (node : htcl)
    (hs : (lookup_loop ig k v h l).2 = some node) : node.bucket_idx = h := by
  rw [lookup_loop_snd] at hs
  simp only [Option.map_eq_some'] at hs
  obtain ⟨n, _, rfl⟩ := hs
  rfl

/-! ## `lookup`, `rcb`, `wcb` and `handle_cmd` on a table -/

@[simp] theorem lookup_match_true (k v : Nat) (n : htcl) :
    lookup_match true k v n = true ↔ n.key = k := by
  simp only [lookup_match, Bool.true_and, Bool.not_true, Bool.false_and, Bool.or_false,
    beq_iff_eq]
  exact eq_comm

@[simp] theorem lookup_match_false (k v : Nat) (n : htcl) :
    lookup_match false k v n = true ↔ n.key = k ∧ n.value = v := by
  simp only [lookup_match, Bool.false_and, Bool.not_false, Bool.true_and, Bool.false_or,
    Bool.and_eq_true, beq_iff_eq]
  exact ⟨fun h => ⟨h.1.symm, h.2.symm⟩, fun h => ⟨h.1.symm, h.2.symm⟩⟩

theorem lookup_fst_bucket (t : hash_table_t) (ig : Bool) (k v idx : Nat) :
    (lookup t ig k v).1.hash_bucket idx =
      if idx = bucket_of k then
        (lookup_loop ig k v (bucket_of k) (t.hash_bucket (bucket_of k))).1
      else t.hash_bucket idx := rfl

theorem lookup_snd (t : hash_table_t) (ig : Bool) (k v : Nat) :
    (lookup t ig k v).2 = (lookup_loop ig k v (bucket_of k) (t.hash_bucket (bucket_of k))).2 :=
  rfl

theorem hash_table_ext {t t' : hash_table_t}
    (h : ∀ idx, t.hash_bucket idx = t'.hash_bucket idx) : t = t' := by
  cases t; cases t'
  congr
  exact funext h

/-- The table after a `lookup` whose matches already carry the index of their bucket is
the table before it. -/
theorem lookup_fst_eq_self (t : hash_table_t) (ig : Bool) (k v : Nat)
    (hidx : ∀ n ∈ t.hash_bucket (bucket_of k),
      lookup_match ig k v n = true → n.bucket_idx = bucket_of k) :
    (lookup t ig k v).1 = t := by
  apply hash_table_ext
  intro idx
  rw [lookup_fst_bucket]
  split
  · next h => rw [h]; exact lookup_loop_fst_of_idx ig k v _ _ hidx
  · rfl

/-- What `handle_cmd` does for `CMD_RETR`. -/
theorem handle_cmd_retr (t : hash_table_t) (k v : Nat) :
    ∃ r, handle_cmd t CMD_RETR k v = some ((lookup t true k v).1, r) ∧
      r.key = k ∧ r.value = v ∧
      ((∃ n ∈ t.hash_bucket (bucket_of k), n.key = k) →
        r.status = CMD_SUCCESS ∧ r.bucket_idx = bucket_of k) ∧
      ((∀ n ∈ t.hash_bucket (bucket_of k), n.key ≠ k) →
        r.status = CMD_NOSUCCESS ∧ r.bucket_idx = INVALID_BUCKET_INDEX) := by
  cases hl : (lookup t true k v).2 with
  | none =>
    refine ⟨⟨k, v, CMD_NOSUCCESS, INVALID_BUCKET_INDEX⟩, ?_, rfl, rfl, ?_, fun _ => ⟨rfl, rfl⟩⟩
    · simp [handle_cmd, rcb, hl, CMD_STOR, CMD_RETR]
    · rintro ⟨n, hn, hk⟩
      rw [lookup_snd, lookup_loop_none_iff] at hl
      have := hl n hn
      simp [lookup_match, hk] at this
  | some node =>
    have hb : node.bucket_idx = bucket_of k := by
      rw [lookup_snd] at hl
      exact lookup_loop_some_idx _ _ _ _ _ _ hl
    refine ⟨⟨k, v, CMD_SUCCESS, node.bucket_idx⟩, ?_, rfl, rfl, fun _ => ⟨rfl, hb⟩, ?_⟩
    · simp [handle_cmd, rcb, hl, CMD_STOR, CMD_RETR]
    · intro hall
      rw [lookup_snd, lookup_loop_snd] at hl
      simp only [Option.map_eq_some'] at hl
      obtain ⟨n, hf, -⟩ := hl
      have h1 := List.find?_some hf
      have h2 := List.mem_of_find?_eq_some hf
      simp only [lookup_match_true] at h1
      exact absurd h1 (hall n h2)

/-- What `handle_cmd` does for `CMD_STOR` on a bucket that has its head node. -/
theorem handle_cmd_stor (t : hash_table_t) (k v : Nat)
    (hne : t.hash_bucket (bucket_of k) ≠ []) :
    ∃ t', handle_cmd t CMD_STOR k v = some (t', ⟨k, v, CMD_SUCCESS, bucket_of k⟩) ∧
      (((∃ n ∈ t.hash_bucket (bucket_of k), n.key = k ∧ n.value = v) ∧
          t' = (lookup t false k v).1) ∨
       ((∀ n ∈ t.hash_bucket (bucket_of k), ¬ (n.key = k ∧ n.value = v)) ∧
          t' = { hash_bucket := fun idx =>
                  if idx = bucket_of k then
                    t.hash_bucket (bucket_of k) ++ [⟨k, v, bucket_of k⟩]
                  else t.hash_bucket idx })) := by
  cases hl : (lookup t false k v).2 with
  | none =>
    have hl' := hl
    rw [lookup_snd] at hl'
    have hfst := lookup_loop_fst_of_none _ _ _ _ _ hl'
    rw [lookup_loop_none_iff] at hl'
    obtain ⟨hd, rest, hc⟩ := List.exists_cons_of_ne_nil hne
    refine ⟨_, ?_, Or.inr ⟨?_, rfl⟩⟩
    · have hb : (lookup t false k v).1.hash_bucket (bucket_of k) = hd :: rest := by
        rw [lookup_fst_bucket, if_pos rfl, hfst, hc]
      simp only [handle_cmd, wcb, hl, CMD_STOR, add_entry_to_bucket, hash_eq_bucket_of, hb,
        beq_self_eq_true, if_true, CMD_SUCCESS, Option.some.injEq, Prod.mk.injEq, and_true]
      apply hash_table_ext
      intro idx
      simp only [lookup_fst_bucket]
      by_cases hi : idx = bucket_of k
      · simp [hi, hc]
      · simp [hi]
    · intro n hn hkv
      have := hl' n hn
      rw [← Bool.not_eq_true, lookup_match_false] at this
      exact this hkv
  | some node =>
    have hb : node.bucket_idx = bucket_of k := by
      rw [lookup_snd] at hl
      exact lookup_loop_some_idx _ _ _ _ _ _ hl
    refine ⟨(lookup t false k v).1, ?_, Or.inl ⟨?_, rfl⟩⟩
    · simp [handle_cmd, wcb, hl, CMD_STOR, CMD_SUCCESS, hb]
    · rw [lookup_snd, lookup_loop_snd] at hl
      simp only [Option.map_eq_some'] at hl
      obtain ⟨n, hf, -⟩ := hl
      have h1 := List.find?_some hf
      rw [lookup_match_false] at h1
      exact ⟨n, List.mem_of_find?_eq_some hf, h1⟩

theorem handle_cmd_stor_null (t : hash_table_t) (k v : Nat)
    (hnil : t.hash_bucket (bucket_of k) = []) : handle_cmd t CMD_STOR k v = none := by
  have h1 : (lookup t false k v).2 = none := by
    rw [lookup_snd, hnil]; rfl
  have h2 : (lookup t false k v).1.hash_bucket (bucket_of k) = [] := by
    rw [lookup_fst_bucket, if_pos rfl, hnil]; rfl
  simp [handle_cmd, wcb, h1, CMD_STOR, add_entry_to_bucket, h2]

/-- Shape of one `handle_cmd` step: only the bucket of the key is touched; its chain is
either the old chain with at most one `bucket_idx` rewritten, or (for a `CMD_STOR` whose
key and value match no node) the old chain with the new node linked at the end. -/
theorem handle_cmd_shape {t t' : hash_table_t} {r : thread_data} {cmd : Bool} {k v : Nat}
    (h : handle_cmd t cmd k v = some (t', r)) :
    (∀ idx, idx ≠ bucket_of k → t'.hash_bucket idx = t.hash_bucket idx) ∧
    (List.Forall₂ (stamped (bucket_of k)) (t.hash_bucket (bucket_of k))
        (t'.hash_bucket (bucket_of k)) ∨
     (cmd = CMD_STOR ∧ t.hash_bucket (bucket_of k) ≠ [] ∧
      (∀ n ∈ t.hash_bucket (bucket_of k), ¬ (n.key = k ∧ n.value = v)) ∧
      t'.hash_bucket (bucket_of k) = t.hash_bucket (bucket_of k) ++ [⟨k, v, bucket_of k⟩])) := by
  have hlk : ∀ ig, (∀ idx, idx ≠ bucket_of k →
        (lookup t ig k v).1.hash_bucket idx = t.hash_bucket idx) ∧
      List.Forall₂ (stamped (bucket_of k)) (t.hash_bucket (bucket_of k))
        ((lookup t ig k v).1.hash_bucket (bucket_of k)) := by
    intro ig
    refine ⟨fun idx hi => by rw [lookup_fst_bucket, if_neg hi], ?_⟩
    rw [lookup_fst_bucket, if_pos rfl]
    exact lookup_loop_stamped _ _ _ _ _
  cases cmd with
  | true =>
    obtain ⟨r', hr, -⟩ := handle_cmd_retr t k v
    rw [show (true = CMD_RETR) from rfl, hr] at h
    simp only [Option.some.injEq, Prod.mk.injEq] at h
    rw [← h.1]
    exact ⟨(hlk true).1, Or.inl (hlk true).2⟩
  | false =>
    by_cases hne : t.hash_bucket (bucket_of k) = []
    · rw [show (false = CMD_STOR) from rfl, handle_cmd_stor_null t k v hne] at h
      exact absurd h (by simp)
    · obtain ⟨t'', hr, hcase⟩ := handle_cmd_stor t k v hne
      rw [show (false = CMD_STOR) from rfl, hr] at h
      simp only [Option.some.injEq, Prod.mk.injEq] at h
      rw [← h.1]
      rcases hcase with ⟨-, rfl⟩ | ⟨hno, rfl⟩
      · exact ⟨(hlk false).1, Or.inl (hlk false).2⟩
      · refine ⟨fun idx hi => by simp [hi], Or.inr ⟨rfl, hne, hno, by simp⟩⟩

theorem forall₂_stamped_tail {h : Nat} {l l' : List htcl}
    (hs : List.Forall₂ (stamped h) l l') : List.Forall₂ (stamped h) l.tail l'.tail := by
  cases hs with
  | nil => exact List.Forall₂.nil
  | cons _ ht => exact ht

theorem forall₂_stamped_map_kv {h : Nat} {l l' : List htcl}
    (hs : List.Forall₂ (stamped h) l l') : l'.map kv = l.map kv := by
  induction hs with
  | nil => rfl
  | cons hab _ ih =>
    simp only [List.map_cons, ih, kv, hab.1, hab.2.1]

theorem forall₂_stamped_mem {h : Nat} {l l' : List htcl}
    (hs : List.Forall₂ (stamped h) l l') {n' : htcl} (hn : n' ∈ l') :
    ∃ n ∈ l, stamped h n n' := by
  induction hs with
  | nil => simp at hn
  | cons hab _ ih =>
    rcases List.mem_cons.mp hn with rfl | hm
    · exact ⟨_, List.mem_cons_self _ _, hab⟩
    · obtain ⟨n, hn1, hn2⟩ := ih hm
      exact ⟨n, List.mem_cons_of_mem _ hn1, hn2⟩

theorem forall₂_stamped_mem_left {h : Nat} {l l' : List htcl}
    (hs : List.Forall₂ (stamped h) l l') {n : htcl} (hn : n ∈ l) :
    ∃ n' ∈ l', stamped h n n' := by
  induction hs with
  | nil => simp at hn
  | cons hab _ ih =>
    rcases List.mem_cons.mp hn with rfl | hm
    · exact ⟨_, List.mem_cons_self _ _, hab⟩
    · obtain ⟨n, hn1, hn2⟩ := ih hm
      exact ⟨n, List.mem_cons_of_mem _ hn1, hn2⟩

theorem tableInv_create (uninit : Nat → Nat) : TableInv (create_hash_table uninit) := by
  refine ⟨fun idx hi => ?_, fun idx n hn => ?_, fun idx => ?_⟩
  · simp [create_hash_table, hi]
  · by_cases hi : idx < HASH_TABLE_SIZE <;> simp [create_hash_table, hi] at hn
  · by_cases hi : idx < HASH_TABLE_SIZE <;> simp [create_hash_table, hi]

theorem tableInv_step {t t' : hash_table_t} {r : thread_data} {cmd : Bool} {k v : Nat}
    (hinv : TableInv t) (h : handle_cmd t cmd k v = some (t', r)) : TableInv t' := by
  obtain ⟨hother, hself⟩ := handle_cmd_shape h
  obtain ⟨h1, h2, h3⟩ := hinv
  have hb : ∀ idx, idx ≠ bucket_of k → t'.hash_bucket idx = t.hash_bucket idx := hother
  rcases hself with hst | ⟨-, hne, hno, happ⟩
  · refine ⟨fun idx hi => ?_, fun idx n hn => ?_, fun idx => ?_⟩
    · by_cases he : idx = bucket_of k
      · subst he
        intro hnil
        have hlen := hst.length_eq
        rw [hnil] at hlen
        exact h1 _ hi (List.length_eq_zero.mp hlen)
      · rw [hb idx he]; exact h1 idx hi
    · by_cases he : idx = bucket_of k
      · subst he
        obtain ⟨m, hm, hk, -, hidx⟩ := forall₂_stamped_mem (forall₂_stamped_tail hst) hn
        have := h2 _ m hm
        refine ⟨by rw [hk]; exact this.1, ?_⟩
        rcases hidx with hidx | hidx
        · rw [hidx]; exact this.2
        · exact hidx
      · rw [hb idx he] at hn; exact h2 idx n hn
    · by_cases he : idx = bucket_of k
      · subst he
        rw [forall₂_stamped_map_kv (forall₂_stamped_tail hst)]
        exact h3 _
      · rw [hb idx he]; exact h3 idx
  · have htail : (t'.hash_bucket (bucket_of k)).tail =
        (t.hash_bucket (bucket_of k)).tail ++ [⟨k, v, bucket_of k⟩] := by
      rw [happ, List.tail_append_of_ne_nil hne]
    refine ⟨fun idx hi => ?_, fun idx n hn => ?_, fun idx => ?_⟩
    · by_cases he : idx = bucket_of k
      · subst he
        rw [happ]
        simp
      · rw [hb idx he]; exact h1 idx hi
    · by_cases he : idx = bucket_of k
      · subst he
        rw [htail, List.mem_append] at hn
        rcases hn with hn | hn
        · exact h2 _ n hn
        · simp only [List.mem_singleton] at hn
          subst hn
          exact ⟨rfl, rfl⟩
      · rw [hb idx he] at hn; exact h2 idx n hn
    · by_cases he : idx = bucket_of k
      · subst he
        rw [htail, List.map_append, List.nodup_append]
        refine ⟨h3 _, by simp, ?_⟩
        intro p hp1 hp2
        simp only [List.map_cons, List.map_nil, List.mem_singleton] at hp2
        subst hp2
        obtain ⟨n, hn, hkv⟩ := List.mem_map.mp hp1
        simp only [kv, Prod.mk.injEq] at hkv
        exact hno n (List.mem_of_mem_tail hn) hkv
      · rw [hb idx he]; exact h3 idx

theorem tableInv_of_reachable {t : hash_table_t} (h : Reachable t) : TableInv t := by
  induction h with
  | init uninit => exact tableInv_create uninit
  | step cmd key value _ hstep ih => exact tableInv_step ih hstep

theorem reachable_bucket_ne_nil {t : hash_table_t} (h : Reachable t) (k : Nat) :
    t.hash_bucket (bucket_of k) ≠ [] :=
  (tableInv_of_reachable h).1 _ (bucket_of_lt k)

/-! ## Runs of the server -/

theorem handle_cmd_total {t : hash_table_t} (h : Reachable t) (cmd : Bool) (k v : Nat) :
    ∃ t' r, handle_cmd t cmd k v = some (t', r) := by
  cases cmd with
  | true =>
    obtain ⟨r, hr, -⟩ := handle_cmd_retr t k v
    exact ⟨_, r, hr⟩
  | false =>
    obtain ⟨t', hr, -⟩ := handle_cmd_stor t k v (reachable_bucket_ne_nil h k)
    exact ⟨t', _, hr⟩

/-- A node with key `k0` in the bucket of `k0` is still there after any `handle_cmd`. -/
theorem key_present_step {t t' : hash_table_t} {r : thread_data} {cmd : Bool} {k v : Nat}
    (h : handle_cmd t cmd k v = some (t', r)) (k0 : Nat)
    (hp : ∃ n ∈ t.hash_bucket (bucket_of k0), n.key = k0) :
    ∃ n ∈ t'.hash_bucket (bucket_of k0), n.key = k0 := by
  obtain ⟨hother, hself⟩ := handle_cmd_shape h
  obtain ⟨n, hn, hk⟩ := hp
  by_cases he : bucket_of k0 = bucket_of k
  · rw [he] at hn ⊢
    rcases hself with hst | ⟨-, -, -, happ⟩
    · obtain ⟨n', hn', hs⟩ := forall₂_stamped_mem_left hst hn
      exact ⟨n', hn', hs.1.trans hk⟩
    · exact ⟨n, by rw [happ]; exact List.mem_append_left _ hn, hk⟩
  · exact ⟨n, by rw [hother _ he]; exact hn, hk⟩

/-- After `CMD_STOR` of key `k` the bucket of `k` holds a node with key `k`. -/
theorem key_present_after_stor {t t' : hash_table_t} {r : thread_data} {k v : Nat}
    (h : handle_cmd t CMD_STOR k v = some (t', r)) :
    ∃ n ∈ t'.hash_bucket (bucket_of k), n.key = k := by
  obtain ⟨-, hself⟩ := handle_cmd_shape h
  rcases hself with hst | ⟨-, -, -, happ⟩
  · by_cases hne : t.hash_bucket (bucket_of k) = []
    · rw [handle_cmd_stor_null t k v hne] at h
      exact absurd h (by simp)
    · obtain ⟨t'', hr, hcase⟩ := handle_cmd_stor t k v hne
      rcases hcase with ⟨⟨n, hn, hk, -⟩, -⟩ | ⟨hno, rfl⟩
      · obtain ⟨n', hn', hs⟩ := forall₂_stamped_mem_left hst hn
        exact ⟨n', hn', hs.1.trans hk⟩
      · rw [hr] at h
        simp only [Option.some.injEq, Prod.mk.injEq] at h
        rw [← h.1]
        exact ⟨⟨k, v, bucket_of k⟩, by simp, rfl⟩
  · exact ⟨⟨k, v, bucket_of k⟩, by rw [happ]; simp, rfl⟩

/-- From a reachable table the server serves every request sequence; the table it ends in
is reachable and has kept a node for every key that had one. -/
theorem serve_reachable {t : hash_table_t} (h : Reachable t) (rqs : List request) :
    ∃ t', serve t rqs = some t' ∧ Reachable t' ∧
      ∀ k0, (∃ n ∈ t.hash_bucket (bucket_of k0), n.key = k0) →
        ∃ n ∈ t'.hash_bucket (bucket_of k0), n.key = k0 := by
  induction rqs generalizing t with
  | nil => exact ⟨t, rfl, h, fun _ hp => hp⟩
  | cons rq rqs ih =>
    obtain ⟨t1, r1, h1⟩ := handle_cmd_total h rq.cmd rq.key rq.value
    obtain ⟨t', hs, hr, hk⟩ := ih (Reachable.step rq.cmd rq.key rq.value h h1)
    refine ⟨t', ?_, hr, fun k0 hp => hk k0 (key_present_step h1 k0 hp)⟩
    simp only [serve, h1]
    exact hs

/-- A bucket without a node of key `k0` stays so under every `handle_cmd` that is not a
`CMD_STOR` of `k0`. -/
theorem key_absent_step {t t' : hash_table_t} {r : thread_data} {cmd : Bool} {k v : Nat}
    (h : handle_cmd t cmd k v = some (t', r)) (k0 : Nat) (hk : cmd = CMD_STOR → k ≠ k0)
    (ha : ∀ n ∈ t.hash_bucket (bucket_of k0), n.key ≠ k0) :
    ∀ n ∈ t'.hash_bucket (bucket_of k0), n.key ≠ k0 := by
  obtain ⟨hother, hself⟩ := handle_cmd_shape h
  intro n hn
  by_cases he : bucket_of k0 = bucket_of k
  · rw [he] at hn ha
    rcases hself with hst | ⟨hc, -, -, happ⟩
    · obtain ⟨m, hm, hs⟩ := forall₂_stamped_mem hst hn
      rw [hs.1]
      exact ha m hm
    · rw [happ, List.mem_append] at hn
      rcases hn with hn | hn
      · exact ha n hn
      · simp only [List.mem_singleton] at hn
        subst hn
        exact hk hc
  · rw [hother _ he] at hn
    exact ha n hn

/-- Retrieval of a key that was never stored: when the unassigned key of the head node of
bucket `hash(k)` is not `k`, then after any request sequence without a
`CMD_STOR` of `k` a `CMD_RETR` of `k` reports `CMD_NOSUCCESS`. -/
theorem retr_never_stored_of_head_ne (uninit : Nat → Nat) (k rv : Nat) (rqs : List request)
    (hhead : uninit (hash (create_hash_table uninit) k) % 4294967296 ≠ k)
    (hns : ∀ rq ∈ rqs, rq.cmd = CMD_STOR → rq.key ≠ k) :
    ∃ t, serve (create_hash_table uninit) rqs = some t ∧
      ∃ t' r, handle_cmd t CMD_RETR k rv = some (t', r) ∧
        r.status = CMD_NOSUCCESS ∧ r.bucket_idx = INVALID_BUCKET_INDEX := by
  have hgen : ∀ (rqs : List request) (t : hash_table_t), Reachable t →
      (∀ n ∈ t.hash_bucket (bucket_of k), n.key ≠ k) →
      (∀ rq ∈ rqs, rq.cmd = CMD_STOR → rq.key ≠ k) →
      ∃ t2, serve t rqs = some t2 ∧ ∀ n ∈ t2.hash_bucket (bucket_of k), n.key ≠ k := by
    intro rqs
    induction rqs with
    | nil => exact fun t _ ha _ => ⟨t, rfl, ha⟩
    | cons rq rqs ih =>
      intro t hr ha hq
      obtain ⟨t1, r1, h1⟩ := handle_cmd_total hr rq.cmd rq.key rq.value
      obtain ⟨t2, hs, ha2⟩ := ih t1 (Reachable.step rq.cmd rq.key rq.value hr h1)
        (key_absent_step h1 k (hq rq (List.mem_cons_self _ _)) ha)
        (fun x hx => hq x (List.mem_cons_of_mem _ hx))
      refine ⟨t2, ?_, ha2⟩
      simp only [serve, h1]
      exact hs
  have h0 : ∀ n ∈ (create_hash_table uninit).hash_bucket (bucket_of k), n.key ≠ k := by
    intro n hn
    simp only [create_hash_table, bucket_of_lt k, if_true, List.mem_singleton] at hn
    subst hn
    exact hhead
  obtain ⟨t, hs, ha⟩ := hgen rqs _ (Reachable.init uninit) h0 hns
  obtain ⟨r, hr, -, -, -, hmiss⟩ := handle_cmd_retr t k rv
  exact ⟨t, hs, _, r, hr, hmiss ha⟩

theorem reachable_table_after (rqs : List request) : Reachable (table_after rqs) := by
  obtain ⟨t', hs, hr, -⟩ := serve_reachable (Reachable.init fun _ => 0) rqs
  simp only [table_after, hs]
  exact hr

/-- The loop of `lookup` when some node matches: the chain splits at the first match, and
only that node is rewritten. -/
theorem lookup_loop_split (ig : Bool) (k v h : Nat) (l : List htcl) (node : htcl)
    (hs : (lookup_loop ig k v h l).2 = some node) :
    ∃ pre m post, l = pre ++ m :: post ∧ (∀ x ∈ pre, lookup_match ig k v x = false) ∧
      lookup_match ig k v m = true ∧ node = { m with bucket_idx := h } ∧
      (lookup_loop ig k v h l).1 = pre ++ { m with bucket_idx := h } :: post := by
  induction l with
  | nil => simp [lookup_loop] at hs
  | cons n l ih =>
    by_cases hm : lookup_match ig k v n = true
    · simp only [lookup_loop, hm, if_true, Option.some.injEq] at hs
      refine ⟨[], n, l, rfl, by simp, hm, hs.symm, ?_⟩
      simp [lookup_loop, hm]
    · simp only [lookup_loop, hm] at hs
      obtain ⟨pre, m, post, hl, hpre, hmm, hnode, hfst⟩ := ih hs
      refine ⟨n :: pre, m, post, by rw [hl]; rfl, ?_, hmm, hnode, ?_⟩
      · intro x hx
        rcases List.mem_cons.mp hx with rfl | hx
        · simpa using hm
        · exact hpre x hx
      · simp only [lookup_loop, hm]
        simp [hfst]

theorem nodup_getElem?_inj {α : Type} {l : List α} (h : l.Nodup) {a b : Nat} {x : α}
    (ha : l[a]? = some x) (hb : l[b]? = some x) : a = b := by
  have hlt := List.nodup_iff_getElem?_ne_getElem?.mp h
  have hal : a < l.length := (List.getElem?_eq_some.mp ha).1
  have hbl : b < l.length := (List.getElem?_eq_some.mp hb).1
  rcases lt_trichotomy a b with hab | hab | hab
  · exact absurd (ha.trans hb.symm) (hlt a b hab hbl)
  · exact hab
  · exact absurd (hb.trans ha.symm) (hlt b a hab hal)

theorem lookup_match_true_eq (k v : Nat) :
    lookup_match true k v = fun n => n.key == k := by
  funext n
  rw [Bool.eq_iff_iff, lookup_match_true, beq_iff_eq]

/-- Repeated store of a new key: from a reachable table whose bucket `hash(k)` has no
node with key k, `CMD_STOR` of (k, v1) and then of (k, v2) both report `CMD_SUCCESS` and
the bucket index `hash(k)`, and the lookup of a following `CMD_RETR` of k returns the node
with the first value v1; the `CMD_RETR` reports `CMD_SUCCESS` and the same bucket index. -/
theorem stor_twice_first_value_matched (t : hash_table_t) (k v1 v2 rv : Nat) (h : Reachable t)
    (hfresh : ∀ n ∈ t.hash_bucket (hash t k), n.key ≠ k) :
    ∃ t1 t2 t3 r3, handle_cmd t CMD_STOR k v1 = some (t1, ⟨k, v1, CMD_SUCCESS, hash t k⟩) ∧
      handle_cmd t1 CMD_STOR k v2 = some (t2, ⟨k, v2, CMD_SUCCESS, hash t k⟩) ∧
      handle_cmd t2 CMD_RETR k rv = some (t3, r3) ∧
      r3.status = CMD_SUCCESS ∧ r3.bucket_idx = hash t k ∧
      (lookup t2 true k rv).2 = some ⟨k, v1, hash t k⟩ := by
  simp only [hash_eq_bucket_of] at hfresh ⊢
  obtain ⟨t1, hr1, hcase1⟩ := handle_cmd_stor t k v1 (reachable_bucket_ne_nil h k)
  have hreach1 : Reachable t1 := Reachable.step CMD_STOR k v1 h hr1
  obtain ⟨t2, hr2, hcase2⟩ := handle_cmd_stor t1 k v2 (reachable_bucket_ne_nil hreach1 k)
  obtain ⟨r3, hr3, -, -, hfound, -⟩ := handle_cmd_retr t2 k rv
  have hp2 := key_present_after_stor hr2
  have hnone : (t.hash_bucket (bucket_of k)).find? (fun n => n.key == k) = none := by
    rw [List.find?_eq_none]
    intro n hn
    simpa using hfresh n hn
  have hc1 : t1.hash_bucket (bucket_of k) =
      t.hash_bucket (bucket_of k) ++ [⟨k, v1, bucket_of k⟩] := by
    rcases hcase1 with ⟨⟨n, hn, hk, -⟩, -⟩ | ⟨-, rfl⟩
    · exact absurd hk (hfresh n hn)
    · simp
  have hc2 : ∃ rest, t2.hash_bucket (bucket_of k) =
      t.hash_bucket (bucket_of k) ++ ⟨k, v1, bucket_of k⟩ :: rest := by
    rcases hcase2 with ⟨-, rfl⟩ | ⟨-, rfl⟩
    · refine ⟨[], ?_⟩
      rw [lookup_fst_eq_self, hc1]
      intro n hn hm
      rw [lookup_match_false] at hm
      rw [hc1, List.mem_append] at hn
      rcases hn with hn | hn
      · exact absurd hm.1 (hfresh n hn)
      · simp only [List.mem_singleton] at hn
        rw [hn]
    · exact ⟨[⟨k, v2, bucket_of k⟩], by simp [hc1]⟩
  obtain ⟨rest, hc2⟩ := hc2
  refine ⟨t1, t2, _, r3, hr1, hr2, hr3, (hfound hp2).1, (hfound hp2).2, ?_⟩
  rw [lookup_snd, lookup_loop_snd, lookup_match_true_eq, hc2]
  simp [List.find?_append, hnone]

/-! ## Message encoding: `snprintf` and `strtol` on hexadecimal fields -/

theorem digitChar_facts : ∀ d, d < 16 →
    isspace (Nat.digitChar d) = false ∧ Nat.digitChar d ≠ '-' ∧ Nat.digitChar d ≠ '+' ∧
    Nat.digitChar d ≠ 'x' ∧ Nat.digitChar d ≠ 'X' ∧ hex_digit_val (Nat.digitChar d) = some d := by
  decide

theorem strtol_digits_map (ds : List Nat) (hds : ∀ d ∈ ds, d < 16) (acc : Nat) :
    strtol_digits acc (ds.map Nat.digitChar) = ds.foldl (fun a d => a * 16 + d) acc := by
  induction ds generalizing acc with
  | nil => rfl
  | cons d ds ih =>
    have hd := (digitChar_facts d (hds d (List.mem_cons_self _ _))).2.2.2.2.2
    simp only [List.map_cons, strtol_digits, hd, List.foldl_cons]
    exact ih (fun x hx => hds x (List.mem_cons_of_mem _ hx)) _

theorem strtol16_map (ds : List Nat) (hds : ∀ d ∈ ds, d < 16)
    (hmax : ((ds.foldl (fun a d => a * 16 + d) 0 : Nat) : Int) ≤ LONG_MAX) :
    strtol16 (ds.map Nat.digitChar) = ((ds.foldl (fun a d => a * 16 + d) 0 : Nat) : Int) := by
  cases ds with
  | nil => decide
  | cons a ds =>
    obtain ⟨h1, h2, h3, -⟩ := digitChar_facts a (hds a (List.mem_cons_self _ _))
    have hdrop : List.dropWhile isspace ((a :: ds).map Nat.digitChar) =
        (a :: ds).map Nat.digitChar := by
      simp [List.dropWhile, h1]
    have hpre : ∀ (s : List Char), s = (a :: ds).map Nat.digitChar →
        (s.head? == some '0' && (s.tail.head? == some 'x' || s.tail.head? == some 'X') &&
          ((s.tail.tail.head?).bind hex_digit_val).isSome) = false := by
      intro s hs
      cases ds with
      | nil => subst hs; simp
      | cons b ds =>
        obtain ⟨-, -, -, h4, h5, -⟩ :=
          digitChar_facts b (hds b (List.mem_cons_of_mem _ (List.mem_cons_self _ _)))
        subst hs
        simp [h4, h5]
    unfold strtol16
    simp only [hdrop]
    have hneg : (((a :: ds).map Nat.digitChar).head? == some '-') = false := by
      simp [h2]
    have hpos : (((a :: ds).map Nat.digitChar).head? == some '+') = false := by
      simp [h3]
    simp only [hneg, hpos, Bool.or_false, Bool.false_eq_true, if_false, hpre _ rfl]
    rw [strtol_digits_map _ hds]
    simp only [not_lt.mpr hmax, if_false]

theorem to_unsigned_int_natCast (n : Nat) (h : n < 4294967296) : to_unsigned_int (n : Int) = n := by
  unfold to_unsigned_int
  omega

theorem hex_low_four (n : Nat) :
    hex_low 4 n = [Nat.digitChar (n / 4096 % 16), Nat.digitChar (n / 256 % 16),
      Nat.digitChar (n / 16 % 16), Nat.digitChar (n % 16)] := by
  simp [hex_low, Nat.div_div_eq_div_mul]

theorem hex_low_eight (n : Nat) :
    hex_low 8 n = [Nat.digitChar (n / 268435456 % 16), Nat.digitChar (n / 16777216 % 16),
      Nat.digitChar (n / 1048576 % 16), Nat.digitChar (n / 65536 % 16),
      Nat.digitChar (n / 4096 % 16), Nat.digitChar (n / 256 % 16),
      Nat.digitChar (n / 16 % 16), Nat.digitChar (n % 16)] := by
  simp [hex_low, Nat.div_div_eq_div_mul]

theorem encode_eq (bdata : buffer_data) (hk : bdata.key < 65536)
    (hv : bdata.value < 4294967296) :
    encode_key_value_to_message_buffer bdata =
      [if bdata.command then '1' else '0', '0', '0', '0',
       Nat.digitChar (bdata.key / 4096 % 16), Nat.digitChar (bdata.key / 256 % 16),
       Nat.digitChar (bdata.key / 16 % 16), Nat.digitChar (bdata.key % 16),
       Nat.digitChar (bdata.value / 268435456 % 16), Nat.digitChar (bdata.value / 16777216 % 16),
       Nat.digitChar (bdata.value / 1048576 % 16), Nat.digitChar (bdata.value / 65536 % 16),
       Nat.digitChar (bdata.value / 4096 % 16), Nat.digitChar (bdata.value / 256 % 16),
       Nat.digitChar (bdata.value / 16 % 16), Nat.digitChar (bdata.value % 16)] := by
  have h1 : bdata.key / 16 ^ 4 = 0 := Nat.div_eq_of_lt (by omega)
  have h2 : bdata.value / 16 ^ 8 = 0 := Nat.div_eq_of_lt (by omega)
  have h3 : fmt_d_bool bdata.command = [if bdata.command then '1' else '0'] := by
    cases bdata.command <;> decide
  simp only [encode_key_value_to_message_buffer, snprintf_msg, fmt_0x, h1, h2, h3, if_true,
    hex_low_four, hex_low_eight, MESSAGE_BUFFER_SIZE]
  rfl

/-- Decoding the text of an encoded `bdata` gives back its flag, key and value. -/
theorem decode_encode_fields (bdata bdata0 : buffer_data) (hk : bdata.key < 65536)
    (hv : bdata.value < 4294967296) :
    decode_key_value_from_message_buffer (encode_key_value_to_message_buffer bdata) bdata0 =
      { bdata0 with command := bdata.command, key := bdata.key, value := bdata.value } := by
  rw [encode_eq bdata hk hv]
  have hkey : strtol16 ([bdata.key / 4096 % 16, bdata.key / 256 % 16, bdata.key / 16 % 16,
      bdata.key % 16].map Nat.digitChar) = ((bdata.key : Nat) : Int) := by
    rw [strtol16_map]
    · simp only [List.foldl]
      congr 1
      omega
    · intro d hd
      simp only [List.mem_cons, List.mem_singleton, List.not_mem_nil, or_false] at hd
      omega
    · simp only [List.foldl, LONG_MAX]
      omega
  have hval : strtol16 ([bdata.value / 268435456 % 16, bdata.value / 16777216 % 16,
      bdata.value / 1048576 % 16, bdata.value / 65536 % 16, bdata.value / 4096 % 16,
      bdata.value / 256 % 16, bdata.value / 16 % 16, bdata.value % 16].map Nat.digitChar) =
      ((bdata.value : Nat) : Int) := by
    rw [strtol16_map]
    · simp only [List.foldl]
      congr 1
      omega
    · intro d hd
      simp only [List.mem_cons, List.mem_singleton, List.not_mem_nil, or_false] at hd
      omega
    · simp only [List.foldl, LONG_MAX]
      omega
  have hcmd : (if ((if bdata.command then '1' else '0') == '1') = true then true else false) =
      bdata.command := by
    cases bdata.command <;> decide
  unfold decode_key_value_from_message_buffer
  simp only [List.map_cons, List.map_nil] at hkey hval
  show ({ bdata0 with
      command := if ((if bdata.command then '1' else '0') == '1') = true then true else false
      key := to_unsigned_int (strtol16 [Nat.digitChar (bdata.key / 4096 % 16),
        Nat.digitChar (bdata.key / 256 % 16), Nat.digitChar (bdata.key / 16 % 16),
        Nat.digitChar (bdata.key % 16)]) % 65536
      value := to_unsigned_int (strtol16 [Nat.digitChar (bdata.value / 268435456 % 16),
        Nat.digitChar (bdata.value / 16777216 % 16), Nat.digitChar (bdata.value / 1048576 % 16),
        Nat.digitChar (bdata.value / 65536 % 16), Nat.digitChar (bdata.value / 4096 % 16),
        Nat.digitChar (bdata.value / 256 % 16), Nat.digitChar (bdata.value / 16 % 16),
        Nat.digitChar (bdata.value % 16)]) } : buffer_data) = _
  rw [hkey, hval, hcmd, to_unsigned_int_natCast _ hv, to_unsigned_int_natCast _ (by omega),
    Nat.mod_eq_of_lt hk]

/-! ## `hash` and the low byte of the key -/

theorem shiftRight_xor (a b n : Nat) : (a ^^^ b) >>> n = (a >>> n) ^^^ (b >>> n) := by
  apply Nat.eq_of_testBit_eq
  intro i
  simp only [Nat.testBit_shiftRight, Nat.testBit_xor]

/-- The value of `hash` written with the key shifted right by 8 bits only. -/
theorem hash_eq_of_high (t : hash_table_t) (k : Nat) :
    hash t k =
      ((0xDEADBE ^^^ (k >>> 8 ^^^ (k >>> 8) >>> 8 ^^^ (k >>> 8) >>> 16 ^^^ (k >>> 8) >>> 24)) ^^^
        (0xDEADBE ^^^ (k >>> 8 ^^^ (k >>> 8) >>> 8 ^^^ (k >>> 8) >>> 16 ^^^ (k >>> 8) >>> 24)) >>> 8
        ^^^
        (0xDEADBE ^^^ (k >>> 8 ^^^ (k >>> 8) >>> 8 ^^^ (k >>> 8) >>> 16 ^^^ (k >>> 8) >>> 24)) >>> 16)
        % 10009 := by
  have hh : ∀ h : Nat, h ^^^ (h ^^^ h >>> 8 ^^^ h >>> 16 ^^^ h >>> 24) =
      h >>> 8 ^^^ (h >>> 8) >>> 8 ^^^ (h >>> 8) >>> 16 := by
    intro h
    rw [Nat.xor_assoc h, Nat.xor_assoc h, Nat.xor_cancel_left, ← Nat.shiftRight_add,
      ← Nat.shiftRight_add, Nat.xor_assoc]
  have hs : (0xDEADBEEF ^^^ (k ^^^ k >>> 8 ^^^ k >>> 16 ^^^ k >>> 24)) >>> 8 =
      0xDEADBE ^^^ (k >>> 8 ^^^ (k >>> 8) >>> 8 ^^^ (k >>> 8) >>> 16 ^^^ (k >>> 8) >>> 24) := by
    simp only [shiftRight_xor, ← Nat.shiftRight_add]
    rfl
  unfold hash
  simp only [hh]
  simp only [hs]
  rfl

/-- The value of `hash` after the unshifted term of the second mixing statement has
cancelled. -/
theorem hash_eq_folded (t : hash_table_t) (k : Nat) :
    hash t k =
      ((0xDEADBEEF ^^^ (k ^^^ k >>> 8 ^^^ k >>> 16 ^^^ k >>> 24)) >>> 8 ^^^
        (0xDEADBEEF ^^^ (k ^^^ k >>> 8 ^^^ k >>> 16 ^^^ k >>> 24)) >>> 16 ^^^
        (0xDEADBEEF ^^^ (k ^^^ k >>> 8 ^^^ k >>> 16 ^^^ k >>> 24)) >>> 24) % 10009 := by
  have hh : ∀ h : Nat, h ^^^ (h ^^^ h >>> 8 ^^^ h >>> 16 ^^^ h >>> 24) =
      h >>> 8 ^^^ h >>> 16 ^^^ h >>> 24 := by
    intro h
    rw [Nat.xor_assoc h, Nat.xor_assoc h, Nat.xor_cancel_left, Nat.xor_assoc]
  unfold hash
  simp only [hh]
  rfl

theorem shiftRight_eight_lt (k : Nat) (hk : k < 65536) : k >>> 8 < 256 := by
  rw [Nat.shiftRight_eq_div_pow]
  omega

/-- The buckets that the keys below 65536 reach are the values of `hash` on the 256 keys
whose low byte is zero. -/
theorem hash_image_subset (t : hash_table_t) :
    (Finset.range 65536).image (hash t) ⊆
      (Finset.range 256).image (fun x => hash t (x <<< 8)) := by
  intro y hy
  rw [Finset.mem_image] at hy ⊢
  obtain ⟨k, hk, rfl⟩ := hy
  rw [Finset.mem_range] at hk
  refine ⟨k >>> 8, Finset.mem_range.mpr (shiftRight_eight_lt k hk), ?_⟩
  rw [hash_eq_of_high t k, hash_eq_of_high t ((k >>> 8) <<< 8)]
  have hx : ((k >>> 8) <<< 8) >>> 8 = k >>> 8 := by
    rw [Nat.shiftLeft_eq, Nat.shiftRight_eq_div_pow (k >>> 8 * 2 ^ 8)]
    exact Nat.mul_div_cancel _ (by decide)
  rw [hx]

/-- Key-only lookup in a chain whose head node does not carry the key: the result is the
first Entry behind the head node with that key, and `NULL` exactly when there is none. -/
theorem lookup_key_only_first_entry (t : hash_table_t) (k v : Nat) (head : htcl)
    (entries : List htcl) (hc : t.hash_bucket (hash t k) = head :: entries)
    (hhead : head.key ≠ k) :
    (lookup t true k v).2 =
      (entries.find? (fun n => n.key == k)).map (fun n => { n with bucket_idx := hash t k }) ∧
    ((lookup t true k v).2 = none ↔ ∀ n ∈ entries, n.key ≠ k) := by
  simp only [hash_eq_bucket_of] at hc ⊢
  have h1 : (lookup t true k v).2 =
      (entries.find? (fun n => n.key == k)).map (fun n => { n with bucket_idx := bucket_of k }) := by
    rw [lookup_snd, lookup_loop_snd, lookup_match_true_eq, hc]
    simp [List.find?_cons, hhead]
  refine ⟨h1, ?_⟩
  rw [h1, Option.map_eq_none', List.find?_eq_none]
  simp

/-- Two different keys with the same bucket, neither of them on a node of that bucket so
far: after `CMD_STOR` of both, the key-only lookup of each returns the node with its own
value. -/
theorem colliding_keys_both_found (t : hash_table_t) (k1 v1 k2 v2 rv : Nat) (h : Reachable t)
    (hne : k1 ≠ k2) (hcol : hash t k1 = hash t k2)
    (hfresh : ∀ n ∈ t.hash_bucket (hash t k1), n.key ≠ k1 ∧ n.key ≠ k2) :
    ∃ t1 r1 t2 r2, handle_cmd t CMD_STOR k1 v1 = some (t1, r1) ∧
      handle_cmd t1 CMD_STOR k2 v2 = some (t2, r2) ∧
      t2.hash_bucket (hash t k1) =
        t.hash_bucket (hash t k1) ++ [⟨k1, v1, hash t k1⟩, ⟨k2, v2, hash t k1⟩] ∧
      (lookup t2 true k1 rv).2 = some ⟨k1, v1, hash t k1⟩ ∧
      (lookup t2 true k2 rv).2 = some ⟨k2, v2, hash t k1⟩ := by
  simp only [hash_eq_bucket_of] at hcol hfresh ⊢
  obtain ⟨t1, hr1, hcase1⟩ := handle_cmd_stor t k1 v1 (reachable_bucket_ne_nil h k1)
  have hreach1 : Reachable t1 := Reachable.step CMD_STOR k1 v1 h hr1
  obtain ⟨t2, hr2, hcase2⟩ := handle_cmd_stor t1 k2 v2 (reachable_bucket_ne_nil hreach1 k2)
  have hc1 : t1.hash_bucket (bucket_of k1) =
      t.hash_bucket (bucket_of k1) ++ [⟨k1, v1, bucket_of k1⟩] := by
    rcases hcase1 with ⟨⟨n, hn, hk, -⟩, -⟩ | ⟨-, rfl⟩
    · exact absurd hk (hfresh n hn).1
    · simp
  have hc2 : t2.hash_bucket (bucket_of k1) =
      t.hash_bucket (bucket_of k1) ++ [⟨k1, v1, bucket_of k1⟩, ⟨k2, v2, bucket_of k1⟩] := by
    rcases hcase2 with ⟨⟨n, hn, hk, -⟩, -⟩ | ⟨-, rfl⟩
    · rw [← hcol, hc1, List.mem_append] at hn
      rcases hn with hn | hn
      · exact absurd hk (hfresh n hn).2
      · simp only [List.mem_singleton] at hn
        subst hn
        exact absurd hk hne
    · simp [← hcol, hc1]
  have hnone1 : (t.hash_bucket (bucket_of k1)).find? (fun n => n.key == k1) = none := by
    rw [List.find?_eq_none]
    intro n hn
    simpa using (hfresh n hn).1
  have hnone2 : (t.hash_bucket (bucket_of k1)).find? (fun n => n.key == k2) = none := by
    rw [List.find?_eq_none]
    intro n hn
    simpa using (hfresh n hn).2
  refine ⟨t1, _, t2, _, hr1, hr2, hc2, ?_, ?_⟩
  · rw [lookup_snd, lookup_loop_snd, lookup_match_true_eq, hc2]
    simp [List.find?_append, hnone1]
  · rw [lookup_snd, lookup_loop_snd, lookup_match_true_eq, ← hcol, hc2]
    simp [List.find?_append, hnone2, List.find?_cons, hne]

/-! ## Lock calls and accesses of the handlers -/

/-- Frame of `CMD_STOR` on any table whose bucket `hash(k)` has its head node: the call
returns, leaves every other bucket as it is and changes no key, value or position in
bucket `hash(k)`.  Either the chain holds a node with key k and value v: then no node is
added and the only write is `bucket_idx = hash(k)` on the first such node.  Or it holds
none: then the old chain is kept as it is and exactly one new node (k, v, hash(k)) is
linked at its end.  When the nodes with key k and value v already carry
`bucket_idx = hash(k)`, the table is unchanged or extended by that one node. -/
theorem stor_frame (t : hash_table_t) (k v : Nat) (hne : t.hash_bucket (hash t k) ≠ []) :
    ∃ t' r, handle_cmd t CMD_STOR k v = some (t', r) ∧
      (∀ idx, idx ≠ hash t k → t'.hash_bucket idx = t.hash_bucket idx) ∧
      ((∃ pre m post, t.hash_bucket (hash t k) = pre ++ m :: post ∧
          (∀ x ∈ pre, ¬ (x.key = k ∧ x.value = v)) ∧ m.key = k ∧ m.value = v ∧
          t'.hash_bucket (hash t k) = pre ++ { m with bucket_idx := hash t k } :: post) ∨
       ((∀ n ∈ t.hash_bucket (hash t k), ¬ (n.key = k ∧ n.value = v)) ∧
          t'.hash_bucket (hash t k) = t.hash_bucket (hash t k) ++ [⟨k, v, hash t k⟩])) ∧
      ((∀ n ∈ t.hash_bucket (hash t k), n.key = k ∧ n.value = v → n.bucket_idx = hash t k) →
        t' = t ∨ t'.hash_bucket (hash t k) = t.hash_bucket (hash t k) ++ [⟨k, v, hash t k⟩]) := by
  simp only [hash_eq_bucket_of] at hne ⊢
  obtain ⟨t', hr, hcase⟩ := handle_cmd_stor t k v hne
  obtain ⟨hother, -⟩ := handle_cmd_shape hr
  refine ⟨t', _, hr, hother, ?_, ?_⟩
  · rcases hcase with ⟨⟨n, hn, hkv⟩, rfl⟩ | ⟨hno, rfl⟩
    · left
      cases hl : (lookup_loop false k v (bucket_of k) (t.hash_bucket (bucket_of k))).2 with
      | none =>
        rw [lookup_loop_none_iff] at hl
        have := hl n hn
        rw [← Bool.not_eq_true, lookup_match_false] at this
        exact absurd hkv this
      | some node =>
        obtain ⟨pre, m, post, hsplit, hpre, hm, -, hfst⟩ := lookup_loop_split _ _ _ _ _ _ hl
        rw [lookup_match_false] at hm
        refine ⟨pre, m, post, hsplit, fun x hx => ?_, hm.1, hm.2, ?_⟩
        · have := hpre x hx
          rwa [← Bool.not_eq_true, lookup_match_false] at this
        · rw [lookup_fst_bucket, if_pos rfl, hfst]
    · exact Or.inr ⟨hno, by simp⟩
  · intro hidx
    rcases hcase with ⟨-, rfl⟩ | ⟨-, rfl⟩
    · left
      apply lookup_fst_eq_self
      intro n hn hm
      rw [lookup_match_false] at hm
      exact hidx n hn hm
    · exact Or.inr (by simp)

/-- Frame of `CMD_RETR` on any table: the call returns, adds, removes and reorders no
node, changes no key and no value, and leaves every bucket other than `hash(k)` as it
is.  When no node of the chain has key k the table is unchanged; otherwise the only write
is `bucket_idx = hash(k)` on the first node with key k, so the table is unchanged
whenever the nodes with key k already carry `bucket_idx = hash(k)`. -/
theorem retr_frame (t : hash_table_t) (k v : Nat) :
    ∃ t' r, handle_cmd t CMD_RETR k v = some (t', r) ∧
      (∀ idx, idx ≠ hash t k → t'.hash_bucket idx = t.hash_bucket idx) ∧
      (((∀ n ∈ t.hash_bucket (hash t k), n.key ≠ k) ∧ t' = t) ∨
       (∃ pre m post, t.hash_bucket (hash t k) = pre ++ m :: post ∧
          (∀ x ∈ pre, x.key ≠ k) ∧ m.key = k ∧
          t'.hash_bucket (hash t k) = pre ++ { m with bucket_idx := hash t k } :: post)) ∧
      ((∀ n ∈ t.hash_bucket (hash t k), n.key = k → n.bucket_idx = hash t k) → t' = t) := by
  simp only [hash_eq_bucket_of]
  obtain ⟨r, hr, -⟩ := handle_cmd_retr t k v
  obtain ⟨hother, -⟩ := handle_cmd_shape hr
  refine ⟨_, r, hr, hother, ?_, ?_⟩
  · cases hl : (lookup_loop true k v (bucket_of k) (t.hash_bucket (bucket_of k))).2 with
    | none =>
      left
      rw [lookup_loop_none_iff] at hl
      have hno : ∀ n ∈ t.hash_bucket (bucket_of k), n.key ≠ k := by
        intro n hn
        have := hl n hn
        rwa [← Bool.not_eq_true, lookup_match_true] at this
      refine ⟨hno, lookup_fst_eq_self t true k v fun n hn hm => ?_⟩
      rw [lookup_match_true] at hm
      exact absurd hm (hno n hn)
    | some node =>
      right
      obtain ⟨pre, m, post, hsplit, hpre, hm, -, hfst⟩ := lookup_loop_split _ _ _ _ _ _ hl
      rw [lookup_match_true] at hm
      refine ⟨pre, m, post, hsplit, fun x hx => ?_, hm, ?_⟩
      · have := hpre x hx
        rwa [← Bool.not_eq_true, lookup_match_true] at this
      · rw [lookup_fst_bucket, if_pos rfl, hfst]
  · intro hidx
    apply lookup_fst_eq_self
    intro n hn hm
    rw [lookup_match_true] at hm
    exact hidx n hn hm

/-- On a reachable table, `CMD_RETR` of a key that the head node of its bucket does not
carry returns the very same table. -/
theorem retr_same_table_of_head_ne (t : hash_table_t) (k v : Nat) (h : Reachable t)
    (hhead : ∀ hd ∈ (t.hash_bucket (hash t k)).head?, hd.key ≠ k) :
    ∃ r, handle_cmd t CMD_RETR k v = some (t, r) := by
  simp only [hash_eq_bucket_of] at hhead
  obtain ⟨r, hr, -⟩ := handle_cmd_retr t k v
  have hsame : (lookup t true k v).1 = t := by
    apply lookup_fst_eq_self
    intro n hn hm
    rw [lookup_match_true] at hm
    cases hc : t.hash_bucket (bucket_of k) with
    | nil => rw [hc] at hn; simp at hn
    | cons hd tl =>
      rw [hc] at hn
      rcases List.mem_cons.mp hn with rfl | hn
      · exact absurd hm (hhead n (by rw [hc]; rfl))
      · exact ((tableInv_of_reachable h).2.1 (bucket_of k) n (by rw [hc]; exact hn)).2
  rw [hsame] at hr
  exact ⟨r, hr⟩

/-- On a reachable table, `CMD_STOR` of a key and value that the head node of the bucket
does not carry leaves the table as it is or appends exactly the node (k, v, hash(k)) to
the chain of bucket `hash(k)`, every other bucket staying as it is. -/
theorem stor_same_or_appended_of_head_ne (t : hash_table_t) (k v : Nat) (h : Reachable t)
    (hhead : ∀ hd ∈ (t.hash_bucket (hash t k)).head?, ¬ (hd.key = k ∧ hd.value = v)) :
    ∃ t' r, handle_cmd t CMD_STOR k v = some (t', r) ∧
      (t' = t ∨
       (t'.hash_bucket (hash t k) = t.hash_bucket (hash t k) ++ [⟨k, v, hash t k⟩] ∧
        ∀ idx, idx ≠ hash t k → t'.hash_bucket idx = t.hash_bucket idx)) := by
  simp only [hash_eq_bucket_of] at hhead ⊢
  obtain ⟨t', hr, hcase⟩ := handle_cmd_stor t k v (reachable_bucket_ne_nil h k)
  obtain ⟨hother, -⟩ := handle_cmd_shape hr
  refine ⟨t', _, hr, ?_⟩
  rcases hcase with ⟨-, rfl⟩ | ⟨-, rfl⟩
  · left
    apply lookup_fst_eq_self
    intro n hn hm
    rw [lookup_match_false] at hm
    cases hc : t.hash_bucket (bucket_of k) with
    | nil => rw [hc] at hn; simp at hn
    | cons hd tl =>
      rw [hc] at hn
      rcases List.mem_cons.mp hn with rfl | hn
      · exact absurd hm (hhead n (by rw [hc]; rfl))
      · exact ((tableInv_of_reachable h).2.1 (bucket_of k) n (by rw [hc]; exact hn)).2
  · exact Or.inr ⟨by simp, hother⟩

/-! ## The claims -/

/-- C1 (as stated, refuted): on the reachable table that holds key 0x5678 with value
0xbcdebcda, `CMD_STOR` of (0x5678, 0xdede4567) followed by `CMD_RETR` of 0x5678 (request
value 0xdeadbeef) reports success with bucket 5483 both times, but the value in the result
of the `CMD_RETR` is the request value 0xdeadbeef, and the node that its lookup matched
holds 0xbcdebcda: neither is the stored 0xdede4567. -/
theorem stor_then_retr_value_counterexample :
    ((handle_cmd (table_after [⟨CMD_STOR, 0x5678, 0xbcdebcda⟩]) CMD_STOR 0x5678 0xdede4567).map
        fun s => s.2) = some ⟨0x5678, 0xdede4567, CMD_SUCCESS, 5483⟩ ∧
    ((handle_cmd (table_after [⟨CMD_STOR, 0x5678, 0xbcdebcda⟩]) CMD_STOR 0x5678 0xdede4567).bind
        fun s => (handle_cmd s.1 CMD_RETR 0x5678 0xdeadbeef).map fun s' => s'.2) =
      some ⟨0x5678, 0xdeadbeef, CMD_SUCCESS, 5483⟩ ∧
    ((handle_cmd (table_after [⟨CMD_STOR, 0x5678, 0xbcdebcda⟩]) CMD_STOR 0x5678 0xdede4567).map
        fun s => (lookup s.1 true 0x5678 0xdeadbeef).2) =
      some (some ⟨0x5678, 0xbcdebcda, 5483⟩) := by
  decide

/-- C1 (amended): in every reachable table state, `CMD_STOR` of (k, v) followed by
`CMD_RETR` of k both return and report `CMD_SUCCESS`, and the `CMD_RETR` reports the
bucket index that the `CMD_STOR` reported, `hash(k)`.  The node that the lookup of the
`CMD_RETR` returns is the first node with key k in the chain of bucket `hash(k)`; it holds
the value v whenever the chain had no node with key k before the `CMD_STOR`. -/
theorem stor_then_retr (t : hash_table_t) (k v rv : Nat) (h : Reachable t) :
    ∃ t1 r1 t2 r2, handle_cmd t CMD_STOR k v = some (t1, r1) ∧
      handle_cmd t1 CMD_RETR k rv = some (t2, r2) ∧
      r1.status = CMD_SUCCESS ∧ r2.status = CMD_SUCCESS ∧
      r1.bucket_idx = hash t k ∧ r2.bucket_idx = r1.bucket_idx ∧
      (lookup t1 true k rv).2 =
        ((t1.hash_bucket (hash t1 k)).find? (fun n => n.key == k)).map
          (fun n => { n with bucket_idx := hash t1 k }) ∧
      ((∀ n ∈ t.hash_bucket (hash t k), n.key ≠ k) →
        (lookup t1 true k rv).2 = some ⟨k, v, hash t k⟩) := by
  obtain ⟨t1, hr1, hcase⟩ := handle_cmd_stor t k v (reachable_bucket_ne_nil h k)
  obtain ⟨r2, hr2, -, -, hfound, -⟩ := handle_cmd_retr t1 k rv
  have hpres := key_present_after_stor hr1
  have hfind : (lookup t1 true k rv).2 =
      ((t1.hash_bucket (bucket_of k)).find? (fun n => n.key == k)).map
        (fun n => { n with bucket_idx := bucket_of k }) := by
    rw [lookup_snd, lookup_loop_snd, lookup_match_true_eq]
  refine ⟨t1, _, _, r2, hr1, hr2, rfl, (hfound hpres).1, rfl, (hfound hpres).2, hfind, ?_⟩
  intro hfresh
  rcases hcase with ⟨⟨n, hn, hk, -⟩, -⟩ | ⟨-, rfl⟩
  · exact absurd hk (hfresh n hn)
  · rw [hfind]
    have hnone : (t.hash_bucket (bucket_of k)).find? (fun n => n.key == k) = none := by
      rw [List.find?_eq_none]
      intro n hn
      simpa using hfresh n hn
    simp [List.find?_append, hnone]

/-- Witness of C1 (amended) on the table of a server that has stored key 0x1234. -/
theorem stor_then_retr_witness :
    Reachable (table_after [⟨CMD_STOR, 0x1234, 0xabcd4321⟩]) ∧
    ∃ t1 r1 t2 r2,
      handle_cmd (table_after [⟨CMD_STOR, 0x1234, 0xabcd4321⟩]) CMD_STOR 0x5678 0xbcdebcda =
        some (t1, r1) ∧
      handle_cmd t1 CMD_RETR 0x5678 0xdeadbeef = some (t2, r2) ∧
      r1.status = CMD_SUCCESS ∧ r2.status = CMD_SUCCESS ∧
      r1.bucket_idx = hash (table_after [⟨CMD_STOR, 0x1234, 0xabcd4321⟩]) 0x5678 ∧
      r2.bucket_idx = r1.bucket_idx ∧
      (lookup t1 true 0x5678 0xdeadbeef).2 =
        ((t1.hash_bucket (hash t1 0x5678)).find? (fun n => n.key == 0x5678)).map
          (fun n => { n with bucket_idx := hash t1 0x5678 }) ∧
      ((∀ n ∈ (table_after [⟨CMD_STOR, 0x1234, 0xabcd4321⟩]).hash_bucket
            (hash (table_after [⟨CMD_STOR, 0x1234, 0xabcd4321⟩]) 0x5678), n.key ≠ 0x5678) →
        (lookup t1 true 0x5678 0xdeadbeef).2 =
          some ⟨0x5678, 0xbcdebcda,
            hash (table_after [⟨CMD_STOR, 0x1234, 0xabcd4321⟩]) 0x5678⟩) :=
  ⟨reachable_table_after _,
   stor_then_retr _ 0x5678 0xbcdebcda 0xdeadbeef (reachable_table_after _)⟩

/-- C2 (the code at the failing input): on the table that `create_hash_table` builds in
zero-filled memory, with nothing stored, `CMD_RETR` of key 0 reports `CMD_SUCCESS` and
bucket 5533: the lookup matches the head node of the bucket, whose key was never
assigned. -/
theorem retr_unstored_key_matches_head :
    (handle_cmd (create_hash_table fun _ => 0) CMD_RETR 0 0xdeadbeef).map (fun s => s.2) =
      some ⟨0, 0xdeadbeef, CMD_SUCCESS, 5533⟩ ∧
    (create_hash_table fun _ => 0).hash_bucket 5533 = [⟨0, 0, 0⟩] := by
  decide

/-- C3 (the code at the failing input): the sequence of the sequential test of `server.c`
on a fresh table.  Both `CMD_STOR` of key 0x1234 report success and bucket 5551, the chain
then holds (0x1234, 0xabcd4321) followed by (0x1234, 0xcaca2345), the lookup of the
`CMD_RETR` matches the node with 0xabcd4321, and the `CMD_RETR` reports success and bucket
5551; but the value in its result is the 0xdeadbeef of the request, not 0xabcd4321. -/
theorem stor_stor_retr_value_not_returned :
    (handle_cmd (create_hash_table fun _ => 0) CMD_STOR 0x1234 0xabcd4321).map (fun s => s.2) =
      some ⟨0x1234, 0xabcd4321, CMD_SUCCESS, 5551⟩ ∧
    (handle_cmd (table_after [⟨CMD_STOR, 0x1234, 0xabcd4321⟩]) CMD_STOR 0x1234 0xcaca2345).map
        (fun s => s.2) = some ⟨0x1234, 0xcaca2345, CMD_SUCCESS, 5551⟩ ∧
    (table_after [⟨CMD_STOR, 0x1234, 0xabcd4321⟩, ⟨CMD_STOR, 0x1234, 0xcaca2345⟩]).hash_bucket
        5551 = [⟨0, 0, 0⟩, ⟨0x1234, 0xabcd4321, 5551⟩, ⟨0x1234, 0xcaca2345, 5551⟩] ∧
    (lookup (table_after [⟨CMD_STOR, 0x1234, 0xabcd4321⟩, ⟨CMD_STOR, 0x1234, 0xcaca2345⟩])
        true 0x1234 0xdeadbeef).2 = some ⟨0x1234, 0xabcd4321, 5551⟩ ∧
    (handle_cmd (table_after [⟨CMD_STOR, 0x1234, 0xabcd4321⟩, ⟨CMD_STOR, 0x1234, 0xcaca2345⟩])
        CMD_RETR 0x1234 0xdeadbeef).map (fun s => s.2) =
      some ⟨0x1234, 0xdeadbeef, CMD_SUCCESS, 5551⟩ := by
  decide

/-- C4 (as stated, refuted): after `CMD_STOR` of (0x9001, 0xcdef1234) and of
(0x9001, 0x11112222) on a fresh table, the chain of bucket 5421 holds two nodes with the
key 0x9001 behind its head node. -/
theorem duplicate_key_counterexample :
    ((table_after [⟨CMD_STOR, 0x9001, 0xcdef1234⟩, ⟨CMD_STOR, 0x9001, 0x11112222⟩]).hash_bucket
        5421).tail = [⟨0x9001, 0xcdef1234, 5421⟩, ⟨0x9001, 0x11112222, 5421⟩] := by
  decide

/-- C4 (amended): in every reachable table state every Entry (a node behind the head node
of a bucket) lies in the bucket `hash(key)` of its key, so two Entries with the same key
are in the same bucket, and two Entries with the same key and the same value are the same
Entry (same bucket, same position): there is at most one Entry per pair of key and
value. -/
theorem entries_unique_per_key_and_value (t : hash_table_t) (h : Reachable t)
    (i j a b : Nat) (n m : htcl)
    (hn : (t.hash_bucket i).tail[a]? = some n) (hm : (t.hash_bucket j).tail[b]? = some m)
    (hk : n.key = m.key) :
    hash t n.key = i ∧ i = j ∧ (n.value = m.value → a = b) := by
  obtain ⟨-, h2, h3⟩ := tableInv_of_reachable h
  have hi := (h2 i n (List.getElem?_mem hn)).1
  have hj := (h2 j m (List.getElem?_mem hm)).1
  have hij : i = j := by rw [← hi, ← hj, hk]
  refine ⟨hi, hij, fun hv => ?_⟩
  subst hij
  have ha : ((t.hash_bucket i).tail.map kv)[a]? = some (kv n) := by
    rw [List.getElem?_map, hn]; rfl
  have hb : ((t.hash_bucket i).tail.map kv)[b]? = some (kv n) := by
    rw [List.getElem?_map, hm]
    simp [kv, hk, hv]
  exact nodup_getElem?_inj (h3 i) ha hb

/-- Witness of C4 (amended): the two Entries of key 0x9001 after two stores with different
values. -/
theorem entries_unique_per_key_and_value_witness :
    Reachable (table_after [⟨CMD_STOR, 0x9001, 0xcdef1234⟩, ⟨CMD_STOR, 0x9001, 0x11112222⟩]) ∧
    ((table_after [⟨CMD_STOR, 0x9001, 0xcdef1234⟩,
        ⟨CMD_STOR, 0x9001, 0x11112222⟩]).hash_bucket 5421).tail[0]? =
      some ⟨0x9001, 0xcdef1234, 5421⟩ ∧
    ((table_after [⟨CMD_STOR, 0x9001, 0xcdef1234⟩,
        ⟨CMD_STOR, 0x9001, 0x11112222⟩]).hash_bucket 5421).tail[1]? =
      some ⟨0x9001, 0x11112222, 5421⟩ ∧
    (hash (table_after [⟨CMD_STOR, 0x9001, 0xcdef1234⟩, ⟨CMD_STOR, 0x9001, 0x11112222⟩])
        0x9001 = 5421 ∧ 5421 = 5421 ∧ ((0xcdef1234 : Nat) = 0x11112222 → 0 = 1)) :=
  ⟨reachable_table_after _, by decide, by decide,
   entries_unique_per_key_and_value _ (reachable_table_after _) 5421 5421 0 1
     ⟨0x9001, 0xcdef1234, 5421⟩ ⟨0x9001, 0x11112222, 5421⟩ (by decide) (by decide) rfl⟩

/-- C5 (the code at the failing input): on the fresh table in zero-filled memory the chain
of bucket 5533 is the head node alone.  `CMD_STOR` of (0, 0) reports success and bucket
5533, but its lookup has matched the head node (unassigned key 0, value 0): no Entry
(0, 0) is appended, and the table is not unchanged either, the `bucket_idx` of the head
node having been rewritten from 0 to 5533. -/
theorem stor_matches_head_node :
    (create_hash_table fun _ => 0).hash_bucket 5533 = [⟨0, 0, 0⟩] ∧
    (handle_cmd (create_hash_table fun _ => 0) CMD_STOR 0 0).map (fun s => s.2) =
      some ⟨0, 0, CMD_SUCCESS, 5533⟩ ∧
    (handle_cmd (create_hash_table fun _ => 0) CMD_STOR 0 0).map
      (fun s => s.1.hash_bucket 5533) = some [⟨0, 0, 5533⟩] := by
  decide

/-- C6 (the code at the failing input): on the fresh table in zero-filled memory the chain
of bucket 5533 is the head node with `bucket_idx` 0.  `CMD_RETR` of key 0 matches that
head node, and after the call the chain holds the head node with `bucket_idx` 5533: the
retrieval has changed the table. -/
theorem retr_rewrites_head_bucket_idx :
    (create_hash_table fun _ => 0).hash_bucket 5533 = [⟨0, 0, 0⟩] ∧
    (handle_cmd (create_hash_table fun _ => 0) CMD_RETR 0 0xdeadbeef).map
      (fun s => s.1.hash_bucket 5533) = some [⟨0, 0, 5533⟩] := by
  decide

/-- C7: for every key (every 32-bit key in particular) `hash` returns a value below the
table size `HASH_TABLE_SIZE = 10009`, so an index at which the bucket array built by
`create_hash_table` has a chain; the result depends on the key alone, not on the table
that is passed. -/
theorem hash_lt_table_size (t t' : hash_table_t) (key : Nat) (uninit : Nat → Nat) :
    hash t key < HASH_TABLE_SIZE ∧ HASH_TABLE_SIZE = 10009 ∧
    (create_hash_table uninit).hash_bucket (hash t key) ≠ [] ∧
    hash t' key = hash t key := by
  refine ⟨bucket_of_lt key, rfl, ?_, rfl⟩
  exact (tableInv_create uninit).1 _ (bucket_of_lt key)

/-- C8: in every reachable table state `CMD_STOR` of any key and value returns, reports
`CMD_SUCCESS` and reports the bucket index `hash(key)`, whether a node with that key and
value was already in the chain (no node is added) or not (a node is appended). -/
theorem stor_reports_success_and_hash (t : hash_table_t) (k v : Nat) (h : Reachable t) :
    ∃ t' r, handle_cmd t CMD_STOR k v = some (t', r) ∧
      r.status = CMD_SUCCESS ∧ r.bucket_idx = hash t k ∧
      ((t'.hash_bucket (hash t k)).length = (t.hash_bucket (hash t k)).length ∨
       t'.hash_bucket (hash t k) = t.hash_bucket (hash t k) ++ [⟨k, v, hash t k⟩]) := by
  obtain ⟨t', hr, hcase⟩ := handle_cmd_stor t k v (reachable_bucket_ne_nil h k)
  refine ⟨t', _, hr, rfl, rfl, ?_⟩
  obtain ⟨-, hself⟩ := handle_cmd_shape hr
  rcases hself with hst | ⟨-, -, -, happ⟩
  · exact Or.inl hst.length_eq.symm
  · exact Or.inr happ

/-- Witness of C8 on the table that already holds key 0x1234: the second `CMD_STOR` of that
key reports success and bucket 5551 again. -/
theorem stor_reports_success_and_hash_witness :
    Reachable (table_after [⟨CMD_STOR, 0x1234, 0xabcd4321⟩]) ∧
    ∃ t' r, handle_cmd (table_after [⟨CMD_STOR, 0x1234, 0xabcd4321⟩]) CMD_STOR 0x1234
        0xcaca2345 = some (t', r) ∧
      r.status = CMD_SUCCESS ∧
      r.bucket_idx = hash (table_after [⟨CMD_STOR, 0x1234, 0xabcd4321⟩]) 0x1234 ∧
      ((t'.hash_bucket (hash (table_after [⟨CMD_STOR, 0x1234, 0xabcd4321⟩]) 0x1234)).length =
        ((table_after [⟨CMD_STOR, 0x1234, 0xabcd4321⟩]).hash_bucket
          (hash (table_after [⟨CMD_STOR, 0x1234, 0xabcd4321⟩]) 0x1234)).length ∨
       t'.hash_bucket (hash (table_after [⟨CMD_STOR, 0x1234, 0xabcd4321⟩]) 0x1234) =
        (table_after [⟨CMD_STOR, 0x1234, 0xabcd4321⟩]).hash_bucket
          (hash (table_after [⟨CMD_STOR, 0x1234, 0xabcd4321⟩]) 0x1234) ++
          [⟨0x1234, 0xcaca2345, hash (table_after [⟨CMD_STOR, 0x1234, 0xabcd4321⟩]) 0x1234⟩]) :=
  ⟨reachable_table_after _,
   stor_reports_success_and_hash _ 0x1234 0xcaca2345 (reachable_table_after _)⟩

/-- C9: once `CMD_STOR` of key `k` has reported a bucket index in a reachable table state,
the server serves any further sequence of requests, and after it every `CMD_RETR` of `k`
and every `CMD_STOR` of `k` (with any value) reports `CMD_SUCCESS` and that same bucket
index. -/
theorem bucket_index_stable (t t1 : hash_table_t) (r1 : thread_data) (k v : Nat)
    (rqs : List request) (rv v' : Nat) (h : Reachable t)
    (hs : handle_cmd t CMD_STOR k v = some (t1, r1)) :
    ∃ t2, serve t1 rqs = some t2 ∧
      (∃ t3 r3, handle_cmd t2 CMD_RETR k rv = some (t3, r3) ∧
        r3.status = CMD_SUCCESS ∧ r3.bucket_idx = r1.bucket_idx) ∧
      (∃ t4 r4, handle_cmd t2 CMD_STOR k v' = some (t4, r4) ∧
        r4.status = CMD_SUCCESS ∧ r4.bucket_idx = r1.bucket_idx) := by
  have hr1 : r1.bucket_idx = bucket_of k := by
    obtain ⟨t', hr, -⟩ := handle_cmd_stor t k v (reachable_bucket_ne_nil h k)
    rw [hr] at hs
    simp only [Option.some.injEq, Prod.mk.injEq] at hs
    rw [← hs.2]
  have hreach1 : Reachable t1 := Reachable.step CMD_STOR k v h hs
  obtain ⟨t2, hserve, hreach2, hkeep⟩ := serve_reachable hreach1 rqs
  have hpres := hkeep k (key_present_after_stor hs)
  refine ⟨t2, hserve, ?_, ?_⟩
  · obtain ⟨r3, hr3, -, -, hfound, -⟩ := handle_cmd_retr t2 k rv
    exact ⟨_, r3, hr3, (hfound hpres).1, (hfound hpres).2.trans hr1.symm⟩
  · obtain ⟨t4, hr4, -⟩ := handle_cmd_stor t2 k v' (reachable_bucket_ne_nil hreach2 k)
    exact ⟨t4, _, hr4, rfl, hr1.symm⟩

/-- Witness of C9: the first `CMD_STOR` of the sequential test of `server.c`, followed by
the three other stores of that test. -/
theorem bucket_index_stable_witness :
    Reachable (create_hash_table fun _ => 0) ∧
    handle_cmd (create_hash_table fun _ => 0) CMD_STOR 0x1234 0xabcd4321 =
      some (table_after [⟨CMD_STOR, 0x1234, 0xabcd4321⟩], ⟨0x1234, 0xabcd4321, true, 5551⟩) ∧
    ∃ t2, serve (table_after [⟨CMD_STOR, 0x1234, 0xabcd4321⟩])
        [⟨CMD_STOR, 0x5678, 0xbcdebcda⟩, ⟨CMD_STOR, 0x9001, 0xcdef1234⟩,
         ⟨CMD_STOR, 0x101, 0xdefa7777⟩] = some t2 ∧
      (∃ t3 r3, handle_cmd t2 CMD_RETR 0x1234 0xdeadbeef = some (t3, r3) ∧
        r3.status = CMD_SUCCESS ∧ r3.bucket_idx = 5551) ∧
      (∃ t4 r4, handle_cmd t2 CMD_STOR 0x1234 0xcaca2345 = some (t4, r4) ∧
        r4.status = CMD_SUCCESS ∧ r4.bucket_idx = 5551) :=
  ⟨Reachable.init _, rfl,
   bucket_index_stable (create_hash_table fun _ => 0) _ ⟨0x1234, 0xabcd4321, true, 5551⟩
     0x1234 0xabcd4321
     [⟨CMD_STOR, 0x5678, 0xbcdebcda⟩, ⟨CMD_STOR, 0x9001, 0xcdef1234⟩,
      ⟨CMD_STOR, 0x101, 0xdefa7777⟩] 0xdeadbeef 0xcaca2345 (Reachable.init _) rfl⟩

/-- C10: for every flag bit, every 16-bit key and every 32-bit value,
`decode_key_value_from_message_buffer` applied to the text written by
`encode_key_value_to_message_buffer` stores the same flag, key and value (and leaves
`seq_num` alone); the text has 16 characters: the flag digit, the filler 000, the four
hexadecimal digits of the key and the eight hexadecimal digits of the value, most
significant first. -/
theorem decode_encode_roundtrip (bdata bdata0 : buffer_data) (hk : bdata.key < 65536)
    (hv : bdata.value < 4294967296) :
    decode_key_value_from_message_buffer (encode_key_value_to_message_buffer bdata) bdata0 =
      { bdata0 with command := bdata.command, key := bdata.key, value := bdata.value } ∧
    encode_key_value_to_message_buffer bdata =
      [if bdata.command then '1' else '0', '0', '0', '0',
       Nat.digitChar (bdata.key / 4096 % 16), Nat.digitChar (bdata.key / 256 % 16),
       Nat.digitChar (bdata.key / 16 % 16), Nat.digitChar (bdata.key % 16),
       Nat.digitChar (bdata.value / 268435456 % 16), Nat.digitChar (bdata.value / 16777216 % 16),
       Nat.digitChar (bdata.value / 1048576 % 16), Nat.digitChar (bdata.value / 65536 % 16),
       Nat.digitChar (bdata.value / 4096 % 16), Nat.digitChar (bdata.value / 256 % 16),
       Nat.digitChar (bdata.value / 16 % 16), Nat.digitChar (bdata.value % 16)] ∧
    (∀ c ∈ (encode_key_value_to_message_buffer bdata).drop 4, (hex_digit_val c).isSome) := by
  refine ⟨?_, encode_eq bdata hk hv, ?_⟩
  swap
  · rw [encode_eq bdata hk hv]
    intro c hc
    simp only [List.drop_succ_cons, List.drop_zero, List.mem_cons, List.mem_singleton,
      List.not_mem_nil, or_false] at hc
    have hd : ∀ d, d < 16 → (hex_digit_val (Nat.digitChar d)).isSome := fun d hd => by
      rw [(digitChar_facts d hd).2.2.2.2.2]; rfl
    rcases hc with rfl | rfl | rfl | rfl | rfl | rfl | rfl | rfl | rfl | rfl | rfl | rfl <;>
      exact hd _ (Nat.mod_lt _ (by decide))
  rw [encode_eq bdata hk hv]
  have hkey : strtol16 ([bdata.key / 4096 % 16, bdata.key / 256 % 16, bdata.key / 16 % 16,
      bdata.key % 16].map Nat.digitChar) = ((bdata.key : Nat) : Int) := by
    rw [strtol16_map]
    · simp only [List.foldl]
      congr 1
      omega
    · intro d hd
      simp only [List.mem_cons, List.mem_singleton, List.not_mem_nil, or_false] at hd
      omega
    · simp only [List.foldl, LONG_MAX]
      omega
  have hval : strtol16 ([bdata.value / 268435456 % 16, bdata.value / 16777216 % 16,
      bdata.value / 1048576 % 16, bdata.value / 65536 % 16, bdata.value / 4096 % 16,
      bdata.value / 256 % 16, bdata.value / 16 % 16, bdata.value % 16].map Nat.digitChar) =
      ((bdata.value : Nat) : Int) := by
    rw [strtol16_map]
    · simp only [List.foldl]
      congr 1
      omega
    · intro d hd
      simp only [List.mem_cons, List.mem_singleton, List.not_mem_nil, or_false] at hd
      omega
    · simp only [List.foldl, LONG_MAX]
      omega
  have hcmd : (if ((if bdata.command then '1' else '0') == '1') = true then true else false) =
      bdata.command := by
    cases bdata.command <;> decide
  unfold decode_key_value_from_message_buffer
  simp only [List.map_cons, List.map_nil] at hkey hval
  show ({ bdata0 with
      command := if ((if bdata.command then '1' else '0') == '1') = true then true else false
      key := to_unsigned_int (strtol16 [Nat.digitChar (bdata.key / 4096 % 16),
        Nat.digitChar (bdata.key / 256 % 16), Nat.digitChar (bdata.key / 16 % 16),
        Nat.digitChar (bdata.key % 16)]) % 65536
      value := to_unsigned_int (strtol16 [Nat.digitChar (bdata.value / 268435456 % 16),
        Nat.digitChar (bdata.value / 16777216 % 16), Nat.digitChar (bdata.value / 1048576 % 16),
        Nat.digitChar (bdata.value / 65536 % 16), Nat.digitChar (bdata.value / 4096 % 16),
        Nat.digitChar (bdata.value / 256 % 16), Nat.digitChar (bdata.value / 16 % 16),
        Nat.digitChar (bdata.value % 16)]) } : buffer_data) = _
  rw [hkey, hval, hcmd, to_unsigned_int_natCast _ hv, to_unsigned_int_natCast _ (by omega),
    Nat.mod_eq_of_lt hk]

/-- Witness of C10: the `CMD_RETR` request for key 0x12ab as the client sends it. -/
theorem decode_encode_roundtrip_witness :
    (0x12ab : Nat) < 65536 ∧ (0xdeadbeef : Nat) < 4294967296 ∧
    decode_key_value_from_message_buffer
        (encode_key_value_to_message_buffer ⟨3, true, 0x12ab, 0xdeadbeef⟩) ⟨7, false, 0, 0⟩ =
      ⟨7, true, 0x12ab, 0xdeadbeef⟩ ∧
    encode_key_value_to_message_buffer ⟨3, true, 0x12ab, 0xdeadbeef⟩ =
      ['1', '0', '0', '0', '1', '2', 'a', 'b', 'd', 'e', 'a', 'd', 'b', 'e', 'e', 'f'] ∧
    (∀ c ∈ (encode_key_value_to_message_buffer ⟨3, true, 0x12ab, 0xdeadbeef⟩).drop 4,
      (hex_digit_val c).isSome) :=
  ⟨by decide, by decide,
   decode_encode_roundtrip ⟨3, true, 0x12ab, 0xdeadbeef⟩ ⟨7, false, 0, 0⟩ (by decide)
     (by decide)⟩

/-- C11: for a response with outcome NOT_FOUND (status bit 0) `construct_response` sets the
value field to `0xdeadbeef` before it encodes, whatever the value was; for outcome SUCCESS
it leaves the value field as it is; in both cases the key and the status flag go into the
text unchanged: decoding the text gives back the status, the key, and the value or the
sentinel. -/
theorem construct_response_sentinel (bdata bdata0 : buffer_data) (hk : bdata.key < 65536)
    (hv : bdata.value < 4294967296) :
    (bdata.command = CMD_NOSUCCESS →
      (construct_response bdata).2 = { bdata with value := 0xdeadbeef } ∧
      (construct_response bdata).1 =
        encode_key_value_to_message_buffer { bdata with value := 0xdeadbeef }) ∧
    (bdata.command = CMD_SUCCESS →
      (construct_response bdata).2 = bdata ∧
      (construct_response bdata).1 = encode_key_value_to_message_buffer bdata) ∧
    decode_key_value_from_message_buffer (construct_response bdata).1 bdata0 =
      { bdata0 with
        command := bdata.command
        key := bdata.key
        value := if bdata.command then bdata.value else 0xdeadbeef } := by
  cases hc : bdata.command with
  | false =>
    refine ⟨fun _ => ⟨?_, ?_⟩, fun h => absurd h (by decide), ?_⟩
    · simp [construct_response, hc]
    · simp [construct_response, hc]
    · have := decode_encode_fields { bdata with value := 0xdeadbeef } bdata0 hk
        (show (0xdeadbeef : Nat) < 4294967296 by decide)
      simpa [construct_response, hc] using this
  | true =>
    refine ⟨fun h => absurd h (by decide), fun _ => ⟨?_, ?_⟩, ?_⟩
    · simp [construct_response, hc]
    · simp [construct_response, hc]
    · have := decode_encode_fields bdata bdata0 hk hv
      simpa [construct_response, hc] using this

/-- Witness of C11: the NOT_FOUND response for key 0x9999 of a request that carried the
value 0x12345678. -/
theorem construct_response_sentinel_witness :
    (0x9999 : Nat) < 65536 ∧ (0x12345678 : Nat) < 4294967296 ∧
    (CMD_NOSUCCESS = CMD_NOSUCCESS →
      (construct_response ⟨4, CMD_NOSUCCESS, 0x9999, 0x12345678⟩).2 =
        ⟨4, CMD_NOSUCCESS, 0x9999, 0xdeadbeef⟩ ∧
      (construct_response ⟨4, CMD_NOSUCCESS, 0x9999, 0x12345678⟩).1 =
        encode_key_value_to_message_buffer ⟨4, CMD_NOSUCCESS, 0x9999, 0xdeadbeef⟩) ∧
    (CMD_NOSUCCESS = CMD_SUCCESS →
      (construct_response ⟨4, CMD_NOSUCCESS, 0x9999, 0x12345678⟩).2 =
        ⟨4, CMD_NOSUCCESS, 0x9999, 0x12345678⟩ ∧
      (construct_response ⟨4, CMD_NOSUCCESS, 0x9999, 0x12345678⟩).1 =
        encode_key_value_to_message_buffer ⟨4, CMD_NOSUCCESS, 0x9999, 0x12345678⟩) ∧
    decode_key_value_from_message_buffer
        (construct_response ⟨4, CMD_NOSUCCESS, 0x9999, 0x12345678⟩).1 ⟨9, true, 0, 0⟩ =
      ⟨9, CMD_NOSUCCESS, 0x9999, 0xdeadbeef⟩ :=
  ⟨by decide, by decide,
   construct_response_sentinel ⟨4, CMD_NOSUCCESS, 0x9999, 0x12345678⟩ ⟨9, true, 0, 0⟩
     (by decide) (by decide)⟩

/-- C12 (the code at the failing input): on a fresh table in zero-filled memory the keys 0
and 1 share bucket 5533.  After `CMD_STOR` of (0, 0x11111111) and of (1, 0x22222222) the
chain holds both Entries behind the head node, and the key-only lookup of key 1 returns the
Entry with 0x22222222; but the key-only lookup of key 0 returns the head node (value 0),
not the Entry with 0x11111111, and already on the fresh table, with no Entry in the
bucket, the lookup of key 0 returns the head node instead of `NULL`. -/
theorem lookup_returns_head_node :
    hash (create_hash_table fun _ => 0) 0 = 5533 ∧ hash (create_hash_table fun _ => 0) 1 = 5533 ∧
    (table_after [⟨CMD_STOR, 0, 0x11111111⟩, ⟨CMD_STOR, 1, 0x22222222⟩]).hash_bucket 5533 =
      [⟨0, 0, 0⟩, ⟨0, 0x11111111, 5533⟩, ⟨1, 0x22222222, 5533⟩] ∧
    (lookup (table_after [⟨CMD_STOR, 0, 0x11111111⟩, ⟨CMD_STOR, 1, 0x22222222⟩])
        true 1 0xdeadbeef).2 = some ⟨1, 0x22222222, 5533⟩ ∧
    (lookup (table_after [⟨CMD_STOR, 0, 0x11111111⟩, ⟨CMD_STOR, 1, 0x22222222⟩])
        true 0 0xdeadbeef).2 = some ⟨0, 0, 5533⟩ ∧
    ((create_hash_table fun _ => 0).hash_bucket 5533).tail = [] ∧
    (lookup (create_hash_table fun _ => 0) true 0 0xdeadbeef).2 = some ⟨0, 0, 5533⟩ := by
  decide

/-- C14: `hash` ignores the low byte of the key.  Two keys that agree after a right shift
by 8 bits have the same hash; the value of `hash` is
`((h >> 8) ^ (h >> 16) ^ (h >> 24)) % 10009` with
`h = 0xDEADBEEF ^ k ^ (k >> 8) ^ (k >> 16) ^ (k >> 24)`, the unshifted `h` having
cancelled; and the 65536 keys of the 16-bit protocol reach at most 256 buckets. -/
theorem hash_ignores_low_byte (t : hash_table_t) (k1 k2 : Nat) (h : k1 >>> 8 = k2 >>> 8) :
    hash t k1 = hash t k2 ∧
    hash t k1 =
      ((0xDEADBEEF ^^^ (k1 ^^^ k1 >>> 8 ^^^ k1 >>> 16 ^^^ k1 >>> 24)) >>> 8 ^^^
        (0xDEADBEEF ^^^ (k1 ^^^ k1 >>> 8 ^^^ k1 >>> 16 ^^^ k1 >>> 24)) >>> 16 ^^^
        (0xDEADBEEF ^^^ (k1 ^^^ k1 >>> 8 ^^^ k1 >>> 16 ^^^ k1 >>> 24)) >>> 24) % 10009 ∧
    ((Finset.range 65536).image (hash t)).card ≤ 256 := by
  refine ⟨?_, hash_eq_folded t k1, ?_⟩
  · rw [hash_eq_of_high t k1, hash_eq_of_high t k2, h]
  · calc ((Finset.range 65536).image (hash t)).card
        ≤ ((Finset.range 256).image (fun x => hash t (x <<< 8))).card :=
          Finset.card_le_card (hash_image_subset t)
      _ ≤ (Finset.range 256).card := Finset.card_image_le
      _ = 256 := Finset.card_range 256

/-- Witness of C14: the keys 0x1200 and 0x12ff differ in the low byte only. -/
theorem hash_ignores_low_byte_witness :
    (0x1200 : Nat) >>> 8 = 0x12ff >>> 8 ∧
    hash (create_hash_table fun _ => 0) 0x1200 = hash (create_hash_table fun _ => 0) 0x12ff ∧
    hash (create_hash_table fun _ => 0) 0x1200 = 5551 ∧
    ((Finset.range 65536).image (hash (create_hash_table fun _ => 0))).card ≤ 256 :=
  ⟨by decide,
   (hash_ignores_low_byte (create_hash_table fun _ => 0) 0x1200 0x12ff (by decide)).1,
   (hash_ignores_low_byte (create_hash_table fun _ => 0) 0x1200 0x12ff (by decide)).2.1,
   (hash_ignores_low_byte (create_hash_table fun _ => 0) 0x1200 0x12ff (by decide)).2.2⟩

/-- C15: `handle_cmd` leaves the value it was given alone: for both commands, every key
and every table state (the bucket of the key having its head node, so that the handler
returns) the worker's `tdata` still holds the key and the value of the call when the
handler finishes, and nothing is written back through `value`.  So the pass of the server
loop for a request answers, when the outcome is `CMD_SUCCESS`, with the encoding of the
flag 1 and of the key and the value of the request itself: neither the stored value nor
the bucket index goes into the response. -/
theorem handle_cmd_leaves_value (t : hash_table_t) (cmd : Bool) (key value : Nat)
    (client_seq seq_num : Nat) (bdata0 : buffer_data)
    (hhead : t.hash_bucket (hash t key) ≠ []) (hk : key < 65536)
    (hv : value < 4294967296) :
    ∃ t' r, handle_cmd t cmd key value = some (t', r) ∧ r.key = key ∧ r.value = value ∧
      ∃ response bdata',
        poll_server_side_socket_to_process_command t seq_num bdata0
            (encode_key_value_to_message_buffer ⟨client_seq, cmd, key, value⟩) =
          some (t', response, bdata') ∧
        bdata'.command = r.status ∧ bdata'.key = key ∧
        (r.status = CMD_SUCCESS →
          bdata'.value = value ∧
          response = encode_key_value_to_message_buffer ⟨seq_num, CMD_SUCCESS, key, value⟩) := by
  obtain ⟨t', r, hr, hkv⟩ : ∃ t' r, handle_cmd t cmd key value = some (t', r) ∧
      (r.key = key ∧ r.value = value) := by
    cases cmd with
    | true =>
      obtain ⟨r', hr', h1, h2, -⟩ := handle_cmd_retr t key value
      exact ⟨_, r', hr', h1, h2⟩
    | false =>
      obtain ⟨t'', hr', -⟩ := handle_cmd_stor t key value hhead
      exact ⟨t'', _, hr', rfl, rfl⟩
  have hdec := decode_encode_fields ⟨client_seq, cmd, key, value⟩
    { bdata0 with seq_num := seq_num } hk hv
  refine ⟨t', r, hr, hkv.1, hkv.2, ?_⟩
  simp only [poll_server_side_socket_to_process_command, hdec, hr]
  refine ⟨_, _, rfl, ?_, ?_, ?_⟩
  · cases r.status <;> simp [construct_response]
  · cases r.status <;> simp [construct_response]
  · intro hs
    rw [hs]
    simp [construct_response, CMD_SUCCESS, encode_key_value_to_message_buffer]

/-- Witness of C15: the server holds (0x1234, 0xabcd4321) and receives the `CMD_RETR`
request for key 0x1234 with the value field 0xdeadbeef. -/
theorem handle_cmd_leaves_value_witness :
    (table_after [⟨CMD_STOR, 0x1234, 0xabcd4321⟩]).hash_bucket
      (hash (table_after [⟨CMD_STOR, 0x1234, 0xabcd4321⟩]) 0x1234) ≠ [] ∧
    (0x1234 : Nat) < 65536 ∧ (0xdeadbeef : Nat) < 4294967296 ∧
    ∃ t' r, handle_cmd (table_after [⟨CMD_STOR, 0x1234, 0xabcd4321⟩]) CMD_RETR 0x1234
        0xdeadbeef = some (t', r) ∧ r.key = 0x1234 ∧ r.value = 0xdeadbeef ∧
      ∃ response bdata',
        poll_server_side_socket_to_process_command
            (table_after [⟨CMD_STOR, 0x1234, 0xabcd4321⟩]) 1 ⟨0, false, 0, 0⟩
            (encode_key_value_to_message_buffer ⟨1, CMD_RETR, 0x1234, 0xdeadbeef⟩) =
          some (t', response, bdata') ∧
        bdata'.command = r.status ∧ bdata'.key = 0x1234 ∧
        (r.status = CMD_SUCCESS →
          bdata'.value = 0xdeadbeef ∧
          response =
            encode_key_value_to_message_buffer ⟨1, CMD_SUCCESS, 0x1234, 0xdeadbeef⟩) :=
  ⟨by decide, by decide, by decide,
   handle_cmd_leaves_value _ CMD_RETR 0x1234 0xdeadbeef 1 1 ⟨0, false, 0, 0⟩
     (by decide) (by decide) (by decide)⟩

end HashServer
